import Mathlib

/-!
Verification of the pkgtrim dependency-graph engine (`pkgtrim.go`).

The engine works on an integer-indexed dependency graph: `n` packages with
ids `0 .. n-1`, forward adjacency `deps : Nat → List Nat` and reverse
adjacency `rdeps`.  The source keeps mutable working arrays
`visited : []bool`, `shared : []bool` and a slice `toporder : []pkgid`;
we model them as a `Finset ℕ` of visited ids, a `Finset ℕ` of shared ids
and a `List ℕ` order buffer.  Recursion in Go is unbounded; the shallow
embedding uses an explicit fuel argument, with fuel `n + 1` being provably
sufficient for the depth-first traversal.
-/

namespace Pkgtrim

/-- Package record from `systems.go`: name, description, size in bytes and
the list of direct dependency names (already resolved, closed world). -/
structure Package where
  name : String
  desc : String
  size : Int
  deps : List String
deriving Repr, DecidableEq

/-- Working state of the traversal: the `visited` marks and the `toporder`
buffer of `Pkgtrim`. -/
structure St where
  vis : Finset ℕ
  ord : List ℕ
deriving DecidableEq

/-- Empty working state: all `visited` marks zero, empty `toporder`. -/
def St.zero : St := ⟨∅, []⟩

/-- Forward dependency edge: `b` is a direct dependency of `a`. -/
def Step (deps : ℕ → List ℕ) (a b : ℕ) : Prop := b ∈ deps a

instance (deps : ℕ → List ℕ) (a b : ℕ) : Decidable (Step deps a b) := by
  unfold Step; infer_instance

/-- Forward reachability along dependency edges (reflexive-transitive). -/
def Reach (deps : ℕ → List ℕ) : ℕ → ℕ → Prop :=
  Relation.ReflTransGen (Step deps)

/-- Reverse adjacency as built by `Pkgtrim` from `deps`:
`j ∈ rdeps i` iff `i ∈ deps j` (membership-faithful to the Go arrays). -/
def rdepsFn (n : ℕ) (deps : ℕ → List ℕ) (i : ℕ) : List ℕ :=
  (List.range n).filter (fun j => decide (i ∈ deps j))

/-- Depth-first search `traverse` from `pkgtrim.go`: skip if visited, else
mark visited, recurse into all direct dependencies, then append the node to
`toporder` (postorder).  `fuel` bounds the recursion depth; `n + 1` fuel is
enough because each nested live call marks a fresh node. -/
def dfs (deps : ℕ → List ℕ) : ℕ → ℕ → St → St
  | 0, _, s => s
  | fuel + 1, u, s =>
    if u ∈ s.vis then s
    else
      let s2 := (deps u).foldl (fun a d => dfs deps fuel d a) ⟨insert u s.vis, s.ord⟩
      ⟨s2.vis, s2.ord ++ [u]⟩

/-- Folding the traversal over a list of start nodes with fixed fuel. -/
def dfsL (deps : ℕ → List ℕ) (fuel : ℕ) (l : List ℕ) (s : St) : St :=
  l.foldl (fun a d => dfs deps fuel d a) s

lemma dfs_zero (deps : ℕ → List ℕ) (u : ℕ) (s : St) : dfs deps 0 u s = s := rfl

lemma dfs_succ (deps : ℕ → List ℕ) (fuel u : ℕ) (s : St) :
    dfs deps (fuel + 1) u s =
      if u ∈ s.vis then s
      else
        let s2 := dfsL deps fuel (deps u) ⟨insert u s.vis, s.ord⟩
        ⟨s2.vis, s2.ord ++ [u]⟩ := rfl

lemma dfsL_nil (deps : ℕ → List ℕ) (fuel : ℕ) (s : St) : dfsL deps fuel [] s = s := rfl

lemma dfsL_cons (deps : ℕ → List ℕ) (fuel d : ℕ) (l : List ℕ) (s : St) :
    dfsL deps fuel (d :: l) s = dfsL deps fuel l (dfs deps fuel d s) := rfl

/-- Running `traverse` from each seed in turn starting from the zero state,
as the seed-argument loop of `Pkgtrim` does, with the provably sufficient
fuel `n + 1`. -/
def traverseAll (n : ℕ) (deps : ℕ → List ℕ) (seeds : List ℕ) : St :=
  dfsL deps (n + 1) seeds St.zero

/-- Single step of the `computeUnique` loop body from `pkgtrim.go`: seeds
always count into the unique size; a non-seed `i` is marked shared iff some
reverse dependency `j` is already shared or lies outside the visited set;
otherwise its size counts into the unique size. -/
def cuStep (rdeps : ℕ → List ℕ) (vis : Finset ℕ) (sizes : ℕ → Int)
    (seed : List ℕ) (acc : Finset ℕ × Int) (i : ℕ) : Finset ℕ × Int :=
  if i ∈ seed then (acc.1, acc.2 + sizes i)
  else if (rdeps i).any (fun j => decide (j ∈ acc.1) || decide (j ∉ vis)) then
    (insert i acc.1, acc.2)
  else (acc.1, acc.2 + sizes i)

/-- Embedding of `computeUnique` from `pkgtrim.go`: reverse `toporder` and
process it in order, threading the `shared` marks (`sh0` is their state on
entry, all-clear in every caller) and accumulating the unique size. -/
def computeUnique (rdeps : ℕ → List ℕ) (vis : Finset ℕ) (sizes : ℕ → Int)
    (seed : List ℕ) (sh0 : Finset ℕ) (ord : List ℕ) : Finset ℕ × Int :=
  ord.reverse.foldl (cuStep rdeps vis sizes seed) (sh0, 0)

/-- Well-formed graph: every dependency of an in-range package is in range.
This is the closed-world Catalog invariant at the id level. -/
def Gwf (n : ℕ) (deps : ℕ → List ℕ) : Prop :=
  ∀ i < n, ∀ d ∈ deps i, d < n

/-- Acyclicity witness: a rank function strictly decreasing along the
dependency edges of in-range nodes.  A finite graph admits one iff it has
no dependency cycle. -/
def RankedDAG (n : ℕ) (deps : ℕ → List ℕ) (rank : ℕ → ℕ) : Prop :=
  ∀ i < n, ∀ j ∈ deps i, rank j < rank i

/-- Dependency-first order: no element of the list has a later element as a
direct dependency, i.e. every node appears after all of its dependencies
that occur in the list. -/
def GoodOrder (deps : ℕ → List ℕ) (L : List ℕ) : Prop :=
  L.Pairwise (fun a b => b ∉ deps a)

/-- Every node already appended to `toporder` has all its direct
dependencies visited (its processing is complete). -/
def BlackClosed (deps : ℕ → List ℕ) (s : St) : Prop :=
  ∀ x ∈ s.ord, ∀ d ∈ deps x, d ∈ s.vis

/-- Visited set closed under forward edges. -/
def VisClosed (deps : ℕ → List ℕ) (V : Finset ℕ) : Prop :=
  ∀ v ∈ V, ∀ d ∈ deps v, d ∈ V

/-- Relation between the traversal state before and after a (sequence of)
complete `traverse` calls whose start nodes satisfy `root`: visited marks
only grow, `toporder` is extended by fresh nodes reachable from a root,
every visited node is old or reachable from a root, and the set of
visited-but-not-yet-appended nodes does not grow. -/
def Ext (deps : ℕ → List ℕ) (root : ℕ → Prop) (s t : St) : Prop :=
  s.vis ⊆ t.vis ∧
  (∃ m, t.ord = s.ord ++ m ∧ m.Nodup ∧
    ∀ x ∈ m, x ∉ s.vis ∧ x ∈ t.vis ∧ ∃ u, root u ∧ Reach deps u x) ∧
  (∀ x ∈ t.vis, x ∈ s.vis ∨ ∃ u, root u ∧ Reach deps u x) ∧
  t.vis \ t.ord.toFinset ⊆ s.vis \ s.ord.toFinset

lemma ext_refl (deps : ℕ → List ℕ) (root : ℕ → Prop) (s : St) : Ext deps root s s := by
  refine ⟨le_refl _, ⟨[], by simp, List.nodup_nil, by simp⟩, fun x hx => Or.inl hx, le_refl _⟩

lemma ext_mono (deps : ℕ → List ℕ) {root root' : ℕ → Prop} (h : ∀ u, root u → root' u)
    {s t : St} (he : Ext deps root s t) : Ext deps root' s t := by
  obtain ⟨h1, ⟨m, hm, hnd, hmx⟩, h3, h4⟩ := he
  refine ⟨h1, ⟨m, hm, hnd, fun x hx => ?_⟩, fun x hx => ?_, h4⟩
  · obtain ⟨a, b, u, hu, hr⟩ := hmx x hx
    exact ⟨a, b, u, h u hu, hr⟩
  · rcases h3 x hx with h | ⟨u, hu, hr⟩
    · exact Or.inl h
    · exact Or.inr ⟨u, h u hu, hr⟩

lemma ext_trans (deps : ℕ → List ℕ) {root : ℕ → Prop} {s t v : St}
    (h1 : Ext deps root s t) (h2 : Ext deps root t v) : Ext deps root s v := by
  obtain ⟨a1, ⟨m1, hm1, hnd1, hx1⟩, c1, d1⟩ := h1
  obtain ⟨a2, ⟨m2, hm2, hnd2, hx2⟩, c2, d2⟩ := h2
  refine ⟨a1.trans a2, ⟨m1 ++ m2, by rw [hm2, hm1, List.append_assoc], ?_, ?_⟩, ?_, d2.trans d1⟩
  · refine List.Nodup.append hnd1 hnd2 (fun x hxm1 hxm2 => ?_)
    exact (hx2 x hxm2).1 ((hx1 x hxm1).2.1)
  · intro x hx
    rcases List.mem_append.mp hx with h | h
    · obtain ⟨p, q, r⟩ := hx1 x h
      exact ⟨p, a2 q, r⟩
    · obtain ⟨p, q, r⟩ := hx2 x h
      exact ⟨fun hs => p (a1 hs), q, r⟩
  · intro x hx
    rcases c2 x hx with h | h
    · exact c1 x h
    · exact Or.inr h

lemma dfsL_ext_of (deps : ℕ → List ℕ) (fuel : ℕ)
    (H : ∀ u s, Ext deps (· = u) s (dfs deps fuel u s)) :
    ∀ (l : List ℕ) (s : St), Ext deps (· ∈ l) s (dfsL deps fuel l s) := by
  intro l
  induction l with
  | nil => intro s; rw [dfsL_nil]; exact ext_refl _ _ _
  | cons d l ih =>
    intro s
    rw [dfsL_cons]
    refine ext_trans deps (ext_mono deps ?_ (H d s)) (ext_mono deps ?_ (ih _))
    · intro u hu; rw [hu]; exact List.mem_cons_self d l
    · intro u hu; exact List.mem_cons_of_mem d hu

lemma dfs_ext (deps : ℕ → List ℕ) :
    ∀ (fuel u : ℕ) (s : St), Ext deps (· = u) s (dfs deps fuel u s) := by
  intro fuel
  induction fuel with
  | zero => intro u s; rw [dfs_zero]; exact ext_refl _ _ _
  | succ f ih =>
    intro u s
    rw [dfs_succ]
    by_cases hu : u ∈ s.vis
    · simp only [hu, if_true]; exact ext_refl _ _ _
    · simp only [hu, if_false]
      obtain ⟨a, ⟨m, hm, hnd, hx⟩, c, d⟩ :=
        dfsL_ext_of deps f ih (deps u) ⟨insert u s.vis, s.ord⟩
      have husub : s.vis ⊆ insert u s.vis := Finset.subset_insert u s.vis
      constructor
      · exact husub.trans a
      constructor
      · refine ⟨m ++ [u], ?_, ?_, ?_⟩
        · show (dfsL deps f (deps u) ⟨insert u s.vis, s.ord⟩).ord ++ [u] = s.ord ++ (m ++ [u])
          rw [hm]; simp
        · refine List.Nodup.append hnd (List.nodup_singleton u) ?_
          intro x hxm hxu
          rw [List.mem_singleton] at hxu
          exact (hx x hxm).1 (hxu ▸ Finset.mem_insert_self u s.vis)
        · intro x hxmu
          rcases List.mem_append.mp hxmu with hxm | hxu
          · obtain ⟨p, q, u', hu', hr⟩ := hx x hxm
            refine ⟨fun hs => p (husub hs), q, u, rfl, ?_⟩
            exact Relation.ReflTransGen.head hu' hr
          · rw [List.mem_singleton] at hxu
            subst hxu
            exact ⟨hu, a (Finset.mem_insert_self x s.vis), x, rfl, Relation.ReflTransGen.refl⟩
      constructor
      · intro x hxv
        rcases c x hxv with hx1 | ⟨u', hu', hr⟩
        · rcases Finset.mem_insert.mp hx1 with h | h
          · exact Or.inr ⟨u, rfl, h ▸ Relation.ReflTransGen.refl⟩
          · exact Or.inl h
        · exact Or.inr ⟨u, rfl, Relation.ReflTransGen.head hu' hr⟩
      · intro x hxg
        rw [Finset.mem_sdiff] at hxg
        obtain ⟨hxv, hxo⟩ := hxg
        rw [List.toFinset_append, Finset.mem_union, List.toFinset_cons] at hxo
        push_neg at hxo
        have hxne : x ≠ u := by
          intro h; exact hxo.2 (by rw [h]; simp)
        have := d (Finset.mem_sdiff.mpr ⟨hxv, hxo.1⟩)
        rw [Finset.mem_sdiff] at this
        rcases Finset.mem_insert.mp this.1 with h | h
        · exact absurd h hxne
        · exact Finset.mem_sdiff.mpr ⟨h, this.2⟩

lemma dfsL_ext (deps : ℕ → List ℕ) (fuel : ℕ) (l : List ℕ) (s : St) :
    Ext deps (· ∈ l) s (dfsL deps fuel l s) :=
  dfsL_ext_of deps fuel (dfs_ext deps fuel) l s

lemma reach_lt {n : ℕ} {deps : ℕ → List ℕ} (wf : Gwf n deps) {a b : ℕ}
    (h : Reach deps a b) (ha : a < n) : b < n := by
  induction h with
  | refl => exact ha
  | tail _ hbc ih => exact wf _ ih _ hbc

lemma reach_rank {n : ℕ} {deps : ℕ → List ℕ} {rank : ℕ → ℕ} (wf : Gwf n deps)
    (hr : RankedDAG n deps rank) {a b : ℕ} (h : Reach deps a b) (ha : a < n) :
    rank b ≤ rank a := by
  induction h with
  | refl => exact le_refl _
  | tail hab hbc ih =>
    have hb := reach_lt wf hab ha
    exact le_of_lt (lt_of_lt_of_le (hr _ hb _ hbc) ih)

/-- In a ranked (acyclic) graph no node both reaches `b` and is a direct
dependency of it: that would close a dependency cycle. -/
lemma reach_step_false {n : ℕ} {deps : ℕ → List ℕ} {rank : ℕ → ℕ} (wf : Gwf n deps)
    (hr : RankedDAG n deps rank) {a b : ℕ} (hab : Reach deps a b)
    (hba : Step deps b a) (ha : a < n) : False := by
  have hb := reach_lt wf hab ha
  have h1 := reach_rank wf hr hab ha
  have h2 := hr b hb a hba
  omega

lemma closed_reach {deps : ℕ → List ℕ} {V : Finset ℕ} (hV : VisClosed deps V)
    {a b : ℕ} (h : Reach deps a b) (ha : a ∈ V) : b ∈ V := by
  induction h with
  | refl => exact ha
  | tail _ hbc ih => exact hV _ ih _ hbc

lemma dfs_of_mem {deps : ℕ → List ℕ} {u : ℕ} {s : St} (hu : u ∈ s.vis) :
    ∀ fuel, dfs deps fuel u s = s := by
  intro fuel
  cases fuel with
  | zero => rfl
  | succ f => rw [dfs_succ]; simp [hu]

lemma dfs_vis_not_mem {deps : ℕ → List ℕ} {u : ℕ} {s : St} (hu : u ∉ s.vis) (f : ℕ) :
    (dfs deps (f + 1) u s).vis = (dfsL deps f (deps u) ⟨insert u s.vis, s.ord⟩).vis := by
  rw [dfs_succ]; simp [hu]

lemma dfs_ord_not_mem {deps : ℕ → List ℕ} {u : ℕ} {s : St} (hu : u ∉ s.vis) (f : ℕ) :
    (dfs deps (f + 1) u s).ord =
      (dfsL deps f (deps u) ⟨insert u s.vis, s.ord⟩).ord ++ [u] := by
  rw [dfs_succ]; simp [hu]

lemma dfs_vis_range {n : ℕ} {deps : ℕ → List ℕ} (wf : Gwf n deps) {u : ℕ} {s : St}
    (hu : u < n) (hs : s.vis ⊆ Finset.range n) (fuel : ℕ) :
    (dfs deps fuel u s).vis ⊆ Finset.range n := by
  intro x hx
  rcases (dfs_ext deps fuel u s).2.2.1 x hx with h | ⟨u', hu', hr⟩
  · exact hs h
  · rw [show u' = u from hu'] at hr
    exact Finset.mem_range.mpr (reach_lt wf hr hu)

lemma dfsL_vis_range {n : ℕ} {deps : ℕ → List ℕ} (wf : Gwf n deps) {l : List ℕ} {s : St}
    (hl : ∀ d ∈ l, d < n) (hs : s.vis ⊆ Finset.range n) (fuel : ℕ) :
    (dfsL deps fuel l s).vis ⊆ Finset.range n := by
  intro x hx
  rcases (dfsL_ext deps fuel l s).2.2.1 x hx with h | ⟨u', hu', hr⟩
  · exact hs h
  · exact Finset.mem_range.mpr (reach_lt wf hr (hl u' hu'))

/-- Completeness of `traverse` with sufficient fuel: the start node ends up
visited, and every node visited by the call has all its direct dependencies
visited, unless it was already visited on entry. -/
lemma dfs_complete {n : ℕ} {deps : ℕ → List ℕ} (wf : Gwf n deps) :
    ∀ (fuel u : ℕ) (s : St), u < n → s.vis ⊆ Finset.range n →
      n < fuel + s.vis.card →
      u ∈ (dfs deps fuel u s).vis ∧
      ∀ v ∈ (dfs deps fuel u s).vis, v ∈ s.vis ∨ ∀ d ∈ deps v, d ∈ (dfs deps fuel u s).vis := by
  intro fuel
  induction fuel with
  | zero =>
    intro u s _ hs hf
    exfalso
    have := Finset.card_le_card hs
    rw [Finset.card_range] at this
    omega
  | succ f ih =>
    intro u s hu hs hf
    by_cases hv : u ∈ s.vis
    · rw [dfs_of_mem hv]
      exact ⟨hv, fun v hv2 => Or.inl hv2⟩
    · have haux : ∀ (l : List ℕ), (∀ d ∈ l, d < n) → ∀ (s' : St),
          s'.vis ⊆ Finset.range n → n < f + s'.vis.card →
          (∀ d ∈ l, d ∈ (dfsL deps f l s').vis) ∧
          (∀ v ∈ (dfsL deps f l s').vis, v ∈ s'.vis ∨
            ∀ d ∈ deps v, d ∈ (dfsL deps f l s').vis) := by
        intro l
        induction l with
        | nil =>
          intro _ s' _ _
          rw [dfsL_nil]
          exact ⟨fun d hd => absurd hd (List.not_mem_nil d), fun v hv2 => Or.inl hv2⟩
        | cons d l ihl =>
          intro hdl s' hs' hf'
          have hd : d < n := hdl d (List.mem_cons_self d l)
          obtain ⟨hd1, hexp1⟩ := ih d s' hd hs' hf'
          have hr1 : (dfs deps f d s').vis ⊆ Finset.range n := dfs_vis_range wf hd hs' f
          have hc1 : n < f + (dfs deps f d s').vis.card := by
            have := Finset.card_le_card (dfs_ext deps f d s').1
            omega
          obtain ⟨hl2, hexp2⟩ := ihl (fun d' hd' => hdl d' (List.mem_cons_of_mem d hd')) _ hr1 hc1
          rw [dfsL_cons]
          constructor
          · intro d' hd'
            rcases List.mem_cons.mp hd' with h | h
            · rw [h]
              exact (dfsL_ext deps f l (dfs deps f d s')).1 hd1
            · exact hl2 d' h
          · intro v hv2
            rcases hexp2 v hv2 with h | h
            · rcases hexp1 v h with h2 | h2
              · exact Or.inl h2
              · refine Or.inr fun d' hd' => ?_
                exact (dfsL_ext deps f l (dfs deps f d s')).1 (h2 d' hd')
            · exact Or.inr h
      have hs1 : (insert u s.vis : Finset ℕ) ⊆ Finset.range n := by
        intro x hx
        rcases Finset.mem_insert.mp hx with h | h
        · exact h ▸ Finset.mem_range.mpr hu
        · exact hs h
      have hc1 : n < f + (insert u s.vis : Finset ℕ).card := by
        rw [Finset.card_insert_of_not_mem hv]
        omega
      obtain ⟨hall, hexp⟩ := haux (deps u) (wf u hu) ⟨insert u s.vis, s.ord⟩ hs1 hc1
      rw [dfs_vis_not_mem hv f] at *
      constructor
      · exact (dfsL_ext deps f (deps u) ⟨insert u s.vis, s.ord⟩).1 (Finset.mem_insert_self u s.vis)
      · intro v hv2
        rcases hexp v hv2 with h | h
        · rcases Finset.mem_insert.mp h with h2 | h2
          · subst h2
            exact Or.inr hall
          · exact Or.inl h2
        · exact Or.inr h

lemma dfsL_complete {n : ℕ} {deps : ℕ → List ℕ} (wf : Gwf n deps) (fuel : ℕ) :
    ∀ (l : List ℕ) (s : St), (∀ d ∈ l, d < n) → s.vis ⊆ Finset.range n →
      n < fuel + s.vis.card → ∀ d ∈ l, d ∈ (dfsL deps fuel l s).vis := by
  intro l
  induction l with
  | nil => intro s _ _ _ d hd; exact absurd hd (List.not_mem_nil d)
  | cons a l ihl =>
    intro s hl hs hf d hd
    rw [dfsL_cons]
    have ha : a < n := hl a (List.mem_cons_self a l)
    have h1 := (dfs_complete wf fuel a s ha hs hf).1
    have hr1 := dfs_vis_range wf ha hs fuel
    have hc1 : n < fuel + (dfs deps fuel a s).vis.card := by
      have := Finset.card_le_card (dfs_ext deps fuel a s).1
      omega
    rcases List.mem_cons.mp hd with h | h
    · rw [h]
      exact (dfsL_ext deps fuel l (dfs deps fuel a s)).1 h1
    · exact ihl _ (fun d' hd' => hl d' (List.mem_cons_of_mem a hd')) hr1 hc1 d h

/-- With enough fuel, a `traverse` call starting from a forward-closed
visited set produces the union of the old set and everything reachable
from the start node, still forward-closed. -/
lemma dfs_closed_exact {n : ℕ} {deps : ℕ → List ℕ} (wf : Gwf n deps) (fuel u : ℕ)
    (s : St) (hu : u < n) (hs : s.vis ⊆ Finset.range n) (hf : n < fuel + s.vis.card)
    (hcl : VisClosed deps s.vis) :
    VisClosed deps (dfs deps fuel u s).vis ∧
      ∀ v, v ∈ (dfs deps fuel u s).vis ↔ v ∈ s.vis ∨ Reach deps u v := by
  obtain ⟨h1, hexp⟩ := dfs_complete wf fuel u s hu hs hf
  have hmono := (dfs_ext deps fuel u s).1
  have hclosed : VisClosed deps (dfs deps fuel u s).vis := by
    intro v hv d hd
    rcases hexp v hv with h | h
    · exact hmono (hcl v h d hd)
    · exact h d hd
  refine ⟨hclosed, fun v => ⟨fun hv => ?_, fun hv => ?_⟩⟩
  · rcases (dfs_ext deps fuel u s).2.2.1 v hv with h | ⟨u', hu', hr⟩
    · exact Or.inl h
    · rw [show u' = u from hu'] at hr
      exact Or.inr hr
  · rcases hv with h | h
    · exact hmono h
    · exact closed_reach hclosed h h1

lemma dfsL_closed_exact {n : ℕ} {deps : ℕ → List ℕ} (wf : Gwf n deps) :
    ∀ (l : List ℕ) (s : St), (∀ d ∈ l, d < n) → s.vis ⊆ Finset.range n →
      VisClosed deps s.vis →
      VisClosed deps (dfsL deps (n + 1) l s).vis ∧
      ∀ v, v ∈ (dfsL deps (n + 1) l s).vis ↔ v ∈ s.vis ∨ ∃ a ∈ l, Reach deps a v := by
  intro l
  induction l with
  | nil =>
    intro s _ _ hcl
    rw [dfsL_nil]
    exact ⟨hcl, fun v => by simp⟩
  | cons a l ihl =>
    intro s hl hs hcl
    have ha : a < n := hl a (List.mem_cons_self a l)
    have hf : n < (n + 1) + s.vis.card := by omega
    obtain ⟨hcl1, hiff1⟩ := dfs_closed_exact wf (n + 1) a s ha hs hf hcl
    have hr1 := dfs_vis_range wf ha hs (n + 1)
    obtain ⟨hcl2, hiff2⟩ :=
      ihl (dfs deps (n + 1) a s) (fun d hd => hl d (List.mem_cons_of_mem a hd)) hr1 hcl1
    rw [dfsL_cons]
    refine ⟨hcl2, fun v => ?_⟩
    rw [hiff2 v, hiff1 v]
    constructor
    · rintro ((h | h) | ⟨b, hb, hr⟩)
      · exact Or.inl h
      · exact Or.inr ⟨a, List.mem_cons_self a l, h⟩
      · exact Or.inr ⟨b, List.mem_cons_of_mem a hb, hr⟩
    · rintro (h | ⟨b, hb, hr⟩)
      · exact Or.inl (Or.inl h)
      · rcases List.mem_cons.mp hb with h2 | h2
        · exact Or.inl (Or.inr (h2 ▸ hr))
        · exact Or.inr ⟨b, h2, hr⟩

/-- Exactness of the forward traversal: starting from the zero state, the
visited set is precisely the set of nodes forward-reachable from a seed. -/
lemma traverseAll_exact {n : ℕ} {deps : ℕ → List ℕ} (wf : Gwf n deps)
    (seeds : List ℕ) (hseeds : ∀ a ∈ seeds, a < n) :
    ∀ v, v ∈ (traverseAll n deps seeds).vis ↔ ∃ a ∈ seeds, Reach deps a v := by
  intro v
  have h := (dfsL_closed_exact wf seeds St.zero hseeds
    (by intro x hx; simp [St.zero] at hx) (by intro x hx d _; simp [St.zero] at hx)).2 v
  rw [show traverseAll n deps seeds = dfsL deps (n + 1) seeds St.zero from rfl, h]
  simp [St.zero]

/-- After a traversal from the zero state the order buffer holds exactly
the visited nodes, each once. -/
lemma dfsL_zero_ord (deps : ℕ → List ℕ) (fuel : ℕ) (l : List ℕ) :
    (dfsL deps fuel l St.zero).ord.Nodup ∧
      (dfsL deps fuel l St.zero).ord.toFinset = (dfsL deps fuel l St.zero).vis := by
  obtain ⟨_, ⟨m, hm, hnd, hx⟩, _, hgray⟩ := dfsL_ext deps fuel l St.zero
  have hords : (dfsL deps fuel l St.zero).ord = m := by
    rw [hm]; rfl
  constructor
  · rw [hords]; exact hnd
  · apply Finset.Subset.antisymm
    · intro x hxm
      rw [hords, List.mem_toFinset] at hxm
      exact (hx x hxm).2.1
    · intro x hxv
      by_contra hno
      have := hgray (Finset.mem_sdiff.mpr ⟨hxv, hno⟩)
      simp [St.zero] at this

/-- Postorder correctness on acyclic graphs: `traverse` keeps the order
buffer dependency-first (`GoodOrder`) and keeps every appended node fully
expanded (`BlackClosed`). -/
lemma dfs_order {n : ℕ} {deps : ℕ → List ℕ} {rank : ℕ → ℕ} (wf : Gwf n deps)
    (hrk : RankedDAG n deps rank) :
    ∀ (fuel u : ℕ) (s : St), u < n → s.vis ⊆ Finset.range n → n < fuel + s.vis.card →
      BlackClosed deps s → GoodOrder deps s.ord →
      BlackClosed deps (dfs deps fuel u s) ∧ GoodOrder deps (dfs deps fuel u s).ord := by
  intro fuel
  induction fuel with
  | zero =>
    intro u s _ hs hf
    exfalso
    have := Finset.card_le_card hs
    rw [Finset.card_range] at this
    omega
  | succ f ih =>
    intro u s hu hs hf hbc hgo
    by_cases hv : u ∈ s.vis
    · rw [dfs_of_mem hv]; exact ⟨hbc, hgo⟩
    · have haux : ∀ (l : List ℕ), (∀ d ∈ l, d < n) → ∀ (s' : St),
          s'.vis ⊆ Finset.range n → n < f + s'.vis.card →
          BlackClosed deps s' → GoodOrder deps s'.ord →
          BlackClosed deps (dfsL deps f l s') ∧ GoodOrder deps (dfsL deps f l s').ord := by
        intro l
        induction l with
        | nil => intro _ s' _ _ hb hg; rw [dfsL_nil]; exact ⟨hb, hg⟩
        | cons d l ihl =>
          intro hdl s' hs' hf' hb hg
          have hd : d < n := hdl d (List.mem_cons_self d l)
          obtain ⟨hb1, hg1⟩ := ih d s' hd hs' hf' hb hg
          have hr1 := dfs_vis_range wf hd hs' f
          have hc1 : n < f + (dfs deps f d s').vis.card := by
            have := Finset.card_le_card (dfs_ext deps f d s').1
            omega
          rw [dfsL_cons]
          exact ihl (fun d' hd' => hdl d' (List.mem_cons_of_mem d hd')) _ hr1 hc1 hb1 hg1
      have hs1 : (insert u s.vis : Finset ℕ) ⊆ Finset.range n := by
        intro x hx
        rcases Finset.mem_insert.mp hx with h | h
        · exact h ▸ Finset.mem_range.mpr hu
        · exact hs h
      have hc1 : n < f + (insert u s.vis : Finset ℕ).card := by
        rw [Finset.card_insert_of_not_mem hv]
        omega
      have hb1 : BlackClosed deps ⟨insert u s.vis, s.ord⟩ := by
        intro x hx d hd
        exact Finset.mem_insert_of_mem (hbc x hx d hd)
      obtain ⟨hb2, hg2⟩ := haux (deps u) (wf u hu) ⟨insert u s.vis, s.ord⟩ hs1 hc1 hb1 hgo
      have hdepsu : ∀ d ∈ deps u, d ∈ (dfsL deps f (deps u) ⟨insert u s.vis, s.ord⟩).vis :=
        dfsL_complete wf f (deps u) _ (wf u hu) hs1 hc1
      obtain ⟨hmono, ⟨m, hm, _, hx⟩, _, _⟩ := dfsL_ext deps f (deps u) ⟨insert u s.vis, s.ord⟩
      constructor
      · intro x hxo d hd
        rw [dfs_vis_not_mem hv f]
        rw [dfs_ord_not_mem hv f, List.mem_append] at hxo
        rcases hxo with h | h
        · exact hb2 x h d hd
        · rw [List.mem_singleton] at h
          subst h
          exact hdepsu d hd
      · rw [dfs_ord_not_mem hv f]
        show List.Pairwise _ (_ ++ [u])
        rw [List.pairwise_append]
        refine ⟨hg2, List.pairwise_singleton _ u, fun x hxo y hy => ?_⟩
        rw [List.mem_singleton] at hy
        subst hy
        rcases List.mem_append.mp (hm ▸ hxo) with h2 | h2
        · intro hcontra
          exact hv (hbc x h2 y hcontra)
        · obtain ⟨hfresh, _, u', hu', hrr⟩ := hx x h2
          intro hcontra
          have hreach : Reach deps y x := Relation.ReflTransGen.head hu' hrr
          exact reach_step_false wf hrk hreach hcontra hu

lemma dfsL_order {n : ℕ} {deps : ℕ → List ℕ} {rank : ℕ → ℕ} (wf : Gwf n deps)
    (hrk : RankedDAG n deps rank) :
    ∀ (l : List ℕ) (s : St), (∀ d ∈ l, d < n) → s.vis ⊆ Finset.range n →
      BlackClosed deps s → GoodOrder deps s.ord →
      BlackClosed deps (dfsL deps (n + 1) l s) ∧
        GoodOrder deps (dfsL deps (n + 1) l s).ord := by
  intro l
  induction l with
  | nil => intro s _ _ hb hg; rw [dfsL_nil]; exact ⟨hb, hg⟩
  | cons d l ihl =>
    intro s hl hs hb hg
    have hd : d < n := hl d (List.mem_cons_self d l)
    have hf : n < (n + 1) + s.vis.card := by omega
    obtain ⟨hb1, hg1⟩ := dfs_order wf hrk (n + 1) d s hd hs hf hb hg
    have hr1 := dfs_vis_range wf hd hs (n + 1)
    rw [dfsL_cons]
    exact ihl _ (fun d' hd' => hl d' (List.mem_cons_of_mem d hd')) hr1 hb1 hg1

/-- Bundle for a traversal from the zero state on an acyclic graph: the
order buffer is a duplicate-free dependency-first enumeration of exactly
the visited nodes. -/
lemma traverseAll_order {n : ℕ} {deps : ℕ → List ℕ} {rank : ℕ → ℕ} (wf : Gwf n deps)
    (hrk : RankedDAG n deps rank) (seeds : List ℕ) (hseeds : ∀ a ∈ seeds, a < n) :
    GoodOrder deps (traverseAll n deps seeds).ord ∧
      (traverseAll n deps seeds).ord.Nodup ∧
      (traverseAll n deps seeds).ord.toFinset = (traverseAll n deps seeds).vis := by
  have h1 := dfsL_order wf hrk seeds St.zero hseeds
    (by intro x hx; simp [St.zero] at hx)
    (by intro x hx d hd; simp [St.zero] at hx)
    (by simp [St.zero, GoodOrder])
  have h2 := dfsL_zero_ord deps (n + 1) seeds
  exact ⟨h1.2, h2.1, h2.2⟩

lemma cuStep_seed {R : ℕ → List ℕ} {vis : Finset ℕ} {sizes : ℕ → Int} {seed : List ℕ}
    {acc : Finset ℕ × Int} {i : ℕ} (h : i ∈ seed) :
    cuStep R vis sizes seed acc i = (acc.1, acc.2 + sizes i) := by
  unfold cuStep
  simp [h]

lemma cuStep_hit {R : ℕ → List ℕ} {vis : Finset ℕ} {sizes : ℕ → Int} {seed : List ℕ}
    {acc : Finset ℕ × Int} {i : ℕ} (h : i ∉ seed)
    (hb : ∃ j ∈ R i, j ∈ acc.1 ∨ j ∉ vis) :
    cuStep R vis sizes seed acc i = (insert i acc.1, acc.2) := by
  have hcond : ((R i).any fun j => decide (j ∈ acc.1) || decide (j ∉ vis)) = true := by
    obtain ⟨j, hj, hjc⟩ := hb
    refine List.any_eq_true.mpr ⟨j, hj, ?_⟩
    rcases hjc with h1 | h1 <;> simp [h1]
  unfold cuStep
  rw [if_neg h, if_pos hcond]

lemma cuStep_miss {R : ℕ → List ℕ} {vis : Finset ℕ} {sizes : ℕ → Int} {seed : List ℕ}
    {acc : Finset ℕ × Int} {i : ℕ} (h : i ∉ seed)
    (hb : ¬ ∃ j ∈ R i, j ∈ acc.1 ∨ j ∉ vis) :
    cuStep R vis sizes seed acc i = (acc.1, acc.2 + sizes i) := by
  have hcond : ¬ (((R i).any fun j => decide (j ∈ acc.1) || decide (j ∉ vis)) = true) := by
    rw [List.any_eq_true]
    rintro ⟨j, hj, hjc⟩
    rw [Bool.or_eq_true, decide_eq_true_eq, decide_eq_true_eq] at hjc
    exact hb ⟨j, hj, hjc⟩
  unfold cuStep
  rw [if_neg h, if_neg hcond]

/-- Shared marks only accumulate on processed non-seed ids. -/
lemma cu_fold_subset (R : ℕ → List ℕ) (vis : Finset ℕ) (sizes : ℕ → Int) (seed : List ℕ) :
    ∀ (L : List ℕ) (σ : Finset ℕ) (sz : Int),
      (L.foldl (cuStep R vis sizes seed) (σ, sz)).1 ⊆ σ ∪ (L.toFinset \ seed.toFinset) := by
  intro L
  induction L with
  | nil => intro σ sz; simp
  | cons x L ihl =>
    intro σ sz
    rw [List.foldl_cons]
    by_cases hxs : x ∈ seed
    · rw [cuStep_seed hxs]
      refine (ihl σ _).trans ?_
      intro y hy
      rcases Finset.mem_union.mp hy with h | h
      · exact Finset.mem_union_left _ h
      · rw [Finset.mem_sdiff] at h
        exact Finset.mem_union_right _ (Finset.mem_sdiff.mpr ⟨by simp [h.1], h.2⟩)
    · by_cases hb : ∃ j ∈ R x, j ∈ σ ∨ j ∉ vis
      · rw [cuStep_hit hxs hb]
        refine (ihl _ _).trans ?_
        intro y hy
        rcases Finset.mem_union.mp hy with h | h
        · rcases Finset.mem_insert.mp h with h2 | h2
          · refine Finset.mem_union_right _ (Finset.mem_sdiff.mpr ⟨by simp [h2], ?_⟩)
            rw [h2]
            simpa using hxs
          · exact Finset.mem_union_left _ h2
        · rw [Finset.mem_sdiff] at h
          exact Finset.mem_union_right _ (Finset.mem_sdiff.mpr ⟨by simp [h.1], h.2⟩)
      · rw [cuStep_miss hxs hb]
        refine (ihl σ _).trans ?_
        intro y hy
        rcases Finset.mem_union.mp hy with h | h
        · exact Finset.mem_union_left _ h
        · rw [Finset.mem_sdiff] at h
          exact Finset.mem_union_right _ (Finset.mem_sdiff.mpr ⟨by simp [h.1], h.2⟩)

/-- Invariant of the `computeUnique` loop: when the processing order lists
every node before every node that depends on it (no later element is a
reverse dependency of an earlier one), the final shared marks satisfy the
defining equation for every processed non-seed id. -/
lemma cu_fold_invariant (R : ℕ → List ℕ) (vis : Finset ℕ) (sizes : ℕ → Int) (seed : List ℕ) :
    ∀ (L p : List ℕ) (σ : Finset ℕ) (sz : Int),
      (p ++ L).Pairwise (fun a b => b ∉ R a) →
      (p ++ L).Nodup →
      σ ⊆ p.toFinset \ seed.toFinset →
      (∀ i ∈ p, i ∉ seed → (i ∈ σ ↔ ∃ j ∈ R i, j ∉ vis ∨ j ∈ σ)) →
      ∀ i ∈ p ++ L, i ∉ seed →
        (i ∈ (L.foldl (cuStep R vis sizes seed) (σ, sz)).1 ↔
          ∃ j ∈ R i, j ∉ vis ∨ j ∈ (L.foldl (cuStep R vis sizes seed) (σ, sz)).1) := by
  intro L
  induction L with
  | nil =>
    intro p σ sz _ _ _ hB i hi his
    rw [List.foldl_nil]
    exact hB i (by simpa using hi) his
  | cons x L ihl =>
    intro p σ sz hpw hnd hA hB i hi his
    have hxp : x ∉ p := by
      intro hc
      have hdis := (List.nodup_append.mp hnd).2.2
      exact hdis hc (List.mem_cons_self x L)
    have hxRp : ∀ a ∈ p, x ∉ R a := by
      intro a ha
      exact (List.pairwise_append.mp hpw).2.2 a ha x (List.mem_cons_self x L)
    have hassoc : p ++ x :: L = (p ++ [x]) ++ L := by simp
    rw [hassoc] at hpw hnd
    have hi2 : i ∈ (p ++ [x]) ++ L := by rw [← hassoc]; exact hi
    rw [List.foldl_cons]
    by_cases hxs : x ∈ seed
    · rw [cuStep_seed hxs]
      refine ihl (p ++ [x]) σ _ hpw hnd ?_ ?_ i hi2 his
      · refine hA.trans (Finset.sdiff_subset_sdiff ?_ (le_refl _))
        intro y hy
        simp only [List.toFinset_append, Finset.mem_union]
        exact Or.inl hy
      · intro a ha has
        rcases List.mem_append.mp ha with h | h
        · exact hB a h has
        · rw [List.mem_singleton] at h
          exact absurd (h ▸ hxs) has
    · by_cases hb : ∃ j ∈ R x, j ∈ σ ∨ j ∉ vis
      · rw [cuStep_hit hxs hb]
        refine ihl (p ++ [x]) (insert x σ) _ hpw hnd ?_ ?_ i hi2 his
        · intro y hy
          rcases Finset.mem_insert.mp hy with h | h
          · refine Finset.mem_sdiff.mpr ⟨?_, ?_⟩
            · simp [h]
            · rw [h]; simpa using hxs
          · have := hA h
            rw [Finset.mem_sdiff] at this
            refine Finset.mem_sdiff.mpr ⟨?_, this.2⟩
            simp only [List.toFinset_append, Finset.mem_union]
            exact Or.inl this.1
        · intro a ha has
          rcases List.mem_append.mp ha with h | h
          · have hne : a ≠ x := fun hc => hxp (hc ▸ h)
            have hlhs : a ∈ insert x σ ↔ a ∈ σ := by
              rw [Finset.mem_insert]
              exact ⟨fun hc => hc.resolve_left hne, Or.inr⟩
            rw [hlhs, hB a h has]
            constructor
            · rintro ⟨j, hj, hjc⟩
              exact ⟨j, hj, hjc.imp id Finset.mem_insert_of_mem⟩
            · rintro ⟨j, hj, hjc⟩
              refine ⟨j, hj, hjc.imp id fun hji => ?_⟩
              rcases Finset.mem_insert.mp hji with h2 | h2
              · exact absurd (h2 ▸ hj) (hxRp a h)
              · exact h2
          · rw [List.mem_singleton] at h
            subst h
            simp only [Finset.mem_insert_self, true_iff]
            obtain ⟨j, hj, hjc⟩ := hb
            exact ⟨j, hj, hjc.symm.imp id Finset.mem_insert_of_mem⟩
      · rw [cuStep_miss hxs hb]
        refine ihl (p ++ [x]) σ _ hpw hnd ?_ ?_ i hi2 his
        · refine hA.trans (Finset.sdiff_subset_sdiff ?_ (le_refl _))
          intro y hy
          simp only [List.toFinset_append, Finset.mem_union]
          exact Or.inl hy
        · intro a ha has
          rcases List.mem_append.mp ha with h | h
          · exact hB a h has
          · rw [List.mem_singleton] at h
            subst h
            have hlhs : a ∉ σ := by
              intro hc
              have := hA hc
              rw [Finset.mem_sdiff, List.mem_toFinset] at this
              exact hxp this.1
            have hrhs : ¬ ∃ j ∈ R a, j ∉ vis ∨ j ∈ σ := by
              rintro ⟨j, hj, hjc⟩
              exact hb ⟨j, hj, hjc.symm⟩
            simp only [hlhs, hrhs]

lemma mem_rdepsFn {n : ℕ} {deps : ℕ → List ℕ} {i j : ℕ} :
    j ∈ rdepsFn n deps i ↔ j < n ∧ i ∈ deps j := by
  simp [rdepsFn]

/-- On an acyclic graph the shared marks computed by `computeUnique` after
a traversal from the zero state satisfy the defining equation of the spec
for every non-seed visited id. -/
lemma computeUnique_spec_eq {n : ℕ} {deps : ℕ → List ℕ} {rank : ℕ → ℕ} (wf : Gwf n deps)
    (hrk : RankedDAG n deps rank) (sizes : ℕ → Int) (seeds : List ℕ)
    (hseeds : ∀ a ∈ seeds, a < n) :
    ∀ i ∈ (traverseAll n deps seeds).vis, i ∉ seeds →
      (i ∈ (computeUnique (rdepsFn n deps) (traverseAll n deps seeds).vis sizes seeds ∅
          (traverseAll n deps seeds).ord).1 ↔
        ∃ j ∈ rdepsFn n deps i, j ∉ (traverseAll n deps seeds).vis ∨
          j ∈ (computeUnique (rdepsFn n deps) (traverseAll n deps seeds).vis sizes seeds ∅
            (traverseAll n deps seeds).ord).1) := by
  intro i hiv his
  obtain ⟨hgo, hnd, hset⟩ := traverseAll_order wf hrk seeds hseeds
  have hpw : ((traverseAll n deps seeds).ord.reverse).Pairwise
      (fun a b => b ∉ rdepsFn n deps a) := by
    rw [List.pairwise_reverse]
    refine hgo.imp ?_
    intro a b hab hc
    rw [mem_rdepsFn] at hc
    exact hab hc.2
  have hmemL : i ∈ (traverseAll n deps seeds).ord.reverse := by
    rw [List.mem_reverse, ← List.mem_toFinset, hset]
    exact hiv
  have h := cu_fold_invariant (rdepsFn n deps) (traverseAll n deps seeds).vis sizes seeds
    (traverseAll n deps seeds).ord.reverse [] ∅ 0
    (by simpa using hpw) (by simpa using List.nodup_reverse.mpr hnd)
    (by simp) (by simp) i (by simpa using hmemL) his
  simpa [computeUnique] using h

/-- Shared marks after a zero-state traversal are visited non-seeds; holds
on every graph, cyclic or not. -/
lemma computeUnique_shared_subset (n : ℕ) (deps : ℕ → List ℕ) (sizes : ℕ → Int)
    (seeds : List ℕ) :
    (computeUnique (rdepsFn n deps) (traverseAll n deps seeds).vis sizes seeds ∅
        (traverseAll n deps seeds).ord).1 ⊆
      (traverseAll n deps seeds).vis \ seeds.toFinset := by
  have h := cu_fold_subset (rdepsFn n deps) (traverseAll n deps seeds).vis sizes seeds
    (traverseAll n deps seeds).ord.reverse ∅ 0
  have hset := (dfsL_zero_ord deps (n + 1) seeds).2
  refine subset_trans (by simpa [computeUnique] using h) ?_
  have hset2 : (traverseAll n deps seeds).ord.toFinset = (traverseAll n deps seeds).vis := hset
  rw [hset2]

lemma seeds_in_vis {n : ℕ} {deps : ℕ → List ℕ} (wf : Gwf n deps) (seeds : List ℕ)
    (hseeds : ∀ a ∈ seeds, a < n) :
    ∀ a ∈ seeds, a ∈ (traverseAll n deps seeds).vis := by
  intro a ha
  exact (traverseAll_exact wf seeds hseeds a).mpr ⟨a, ha, Relation.ReflTransGen.refl⟩

lemma traverseAll_vis_range {n : ℕ} {deps : ℕ → List ℕ} (wf : Gwf n deps) (seeds : List ℕ)
    (hseeds : ∀ a ∈ seeds, a < n) :
    (traverseAll n deps seeds).vis ⊆ Finset.range n := by
  refine dfsL_vis_range wf hseeds ?_ (n + 1)
  intro x hx
  simp [St.zero] at hx

/-- Reporting loop of the seed-argument mode of `Pkgtrim`: one pass over
all package ids accumulating `sharedsize` (first component) over the
shared ids and `uniquesize` (second component) over the visited non-shared
ids. -/
def reportSizes (n : ℕ) (sizes : ℕ → Int) (sh vis : Finset ℕ) : Int × Int :=
  (List.range n).foldl
    (fun acc i =>
      if i ∈ sh then (acc.1 + sizes i, acc.2)
      else if i ∈ vis then (acc.1, acc.2 + sizes i) else acc) (0, 0)

lemma reportSizes_add (sizes : ℕ → Int) (sh vis : Finset ℕ) (hsub : sh ⊆ vis) :
    ∀ n, (reportSizes n sizes sh vis).2 + (reportSizes n sizes sh vis).1 =
      ∑ i in (Finset.range n).filter (· ∈ vis), sizes i := by
  intro n
  induction n with
  | zero => simp [reportSizes]
  | succ m ih =>
    have hstep : reportSizes (m + 1) sizes sh vis =
        (fun acc i =>
          if i ∈ sh then (acc.1 + sizes i, acc.2)
          else if i ∈ vis then (acc.1, acc.2 + sizes i) else acc)
          (reportSizes m sizes sh vis) m := by
      unfold reportSizes
      rw [List.range_succ, List.foldl_append, List.foldl_cons, List.foldl_nil]
    have hfr : (Finset.range (m + 1)).filter (· ∈ vis) =
        if m ∈ vis then insert m ((Finset.range m).filter (· ∈ vis))
        else (Finset.range m).filter (· ∈ vis) := by
      rw [Finset.range_succ, Finset.filter_insert]
    have hmnot : m ∉ (Finset.range m).filter (· ∈ vis) := by
      simp
    by_cases h1 : m ∈ sh
    · have h2 : m ∈ vis := hsub h1
      rw [hstep, hfr]
      simp only [h1, h2, if_true]
      rw [Finset.sum_insert hmnot]
      omega
    · by_cases h2 : m ∈ vis
      · rw [hstep, hfr]
        simp only [h1, h2, if_true, if_false]
        rw [Finset.sum_insert hmnot]
        omega
      · rw [hstep, hfr]
        simp only [h1, h2, if_false]
        exact ih

instance (n : ℕ) (deps : ℕ → List ℕ) : Decidable (Gwf n deps) := by
  unfold Gwf; infer_instance

instance (n : ℕ) (deps : ℕ → List ℕ) (rank : ℕ → ℕ) : Decidable (RankedDAG n deps rank) := by
  unfold RankedDAG; infer_instance

/-- Small acyclic example graph: package 0 depends on package 1. -/
def exA : ℕ → List ℕ := fun i => [[1], []].getD i []

/-- Cyclic example graph: 0 → 1, 1 → 2, 2 → 1 and an extra package 3 → 2
outside the closure of 0. -/
def exC1 : ℕ → List ℕ := fun i => [[1], [2], [1], [2]].getD i []

/-- C1 counterexample: on a cyclic dependency graph the defining equation
of the spec fails.  With seed 0 on the graph 0 → 1, 1 → 2, 2 → 1, 3 → 2,
the non-seed id 1 is visited, and after `computeUnique` we have
`shared[1] = false` although its reverse dependency 2 ends up shared, so
the claimed equivalence is violated at `i = 1`. -/
theorem claimC1_counterexample :
    1 ∈ (traverseAll 4 exC1 [0]).vis ∧ (1 : ℕ) ∉ [0] ∧
    ¬ (1 ∈ (computeUnique (rdepsFn 4 exC1) (traverseAll 4 exC1 [0]).vis (fun _ => (1 : Int))
          [0] ∅ (traverseAll 4 exC1 [0]).ord).1 ↔
       ∃ j ∈ rdepsFn 4 exC1 1, j ∉ (traverseAll 4 exC1 [0]).vis ∨
         j ∈ (computeUnique (rdepsFn 4 exC1) (traverseAll 4 exC1 [0]).vis (fun _ => (1 : Int))
          [0] ∅ (traverseAll 4 exC1 [0]).ord).1) := by
  decide

/-- C1 (amended to acyclic graphs): after `computeClosure` on an acyclic
dependency graph with any seed set, for every non-seed id `i` in `visited`,
`shared[i]` is true iff some `j ∈ rdeps[i]` is outside `visited` or is
itself shared. -/
theorem claimC1_amended {n : ℕ} {deps : ℕ → List ℕ} {rank : ℕ → ℕ} (wf : Gwf n deps)
    (hrk : RankedDAG n deps rank) (sizes : ℕ → Int) (seeds : List ℕ)
    (hseeds : ∀ a ∈ seeds, a < n) :
    ∀ i ∈ (traverseAll n deps seeds).vis, i ∉ seeds →
      (i ∈ (computeUnique (rdepsFn n deps) (traverseAll n deps seeds).vis sizes seeds ∅
          (traverseAll n deps seeds).ord).1 ↔
        ∃ j ∈ rdepsFn n deps i, j ∉ (traverseAll n deps seeds).vis ∨
          j ∈ (computeUnique (rdepsFn n deps) (traverseAll n deps seeds).vis sizes seeds ∅
            (traverseAll n deps seeds).ord).1) :=
  computeUnique_spec_eq wf hrk sizes seeds hseeds

/-- Witness for the amended C1 on the concrete acyclic graph `exA`. -/
theorem claimC1_witness :
    1 ∈ (computeUnique (rdepsFn 2 exA) (traverseAll 2 exA [0]).vis (fun _ => (1 : Int))
        [0] ∅ (traverseAll 2 exA [0]).ord).1 ↔
      ∃ j ∈ rdepsFn 2 exA 1, j ∉ (traverseAll 2 exA [0]).vis ∨
        j ∈ (computeUnique (rdepsFn 2 exA) (traverseAll 2 exA [0]).vis (fun _ => (1 : Int))
          [0] ∅ (traverseAll 2 exA [0]).ord).1 :=
  @claimC1_amended 2 exA (fun i => 2 - i) (by decide) (by decide) (fun _ => (1 : Int))
    [0] (by decide) 1 (by decide) (by decide)

/-- C6: the visited set of the forward traversal is exactly the set of
nodes forward-reachable from the seeds along dependency edges. -/
theorem claimC6 {n : ℕ} {deps : ℕ → List ℕ} (wf : Gwf n deps) (seeds : List ℕ)
    (hseeds : ∀ a ∈ seeds, a < n) :
    ∀ v, v ∈ (traverseAll n deps seeds).vis ↔ ∃ a ∈ seeds, Reach deps a v :=
  traverseAll_exact wf seeds hseeds

/-- Witness for C6 on the concrete graph `exA`. -/
theorem claimC6_witness :
    1 ∈ (traverseAll 2 exA [0]).vis ↔ ∃ a ∈ [0], Reach exA a 1 :=
  @claimC6 2 exA (by decide) [0] (by decide) 1

/-- C4: after `computeClosure`, `shared` and `unique := visited \ shared`
partition `visited`, and every seed lands in `unique` (a seed is never
marked shared).  Holds on arbitrary graphs, cyclic or not. -/
theorem claimC4 {n : ℕ} {deps : ℕ → List ℕ} (wf : Gwf n deps) (sizes : ℕ → Int)
    (seeds : List ℕ) (hseeds : ∀ a ∈ seeds, a < n) :
    (computeUnique (rdepsFn n deps) (traverseAll n deps seeds).vis sizes seeds ∅
        (traverseAll n deps seeds).ord).1 ∪
      ((traverseAll n deps seeds).vis \
        (computeUnique (rdepsFn n deps) (traverseAll n deps seeds).vis sizes seeds ∅
          (traverseAll n deps seeds).ord).1) = (traverseAll n deps seeds).vis ∧
    (computeUnique (rdepsFn n deps) (traverseAll n deps seeds).vis sizes seeds ∅
        (traverseAll n deps seeds).ord).1 ∩
      ((traverseAll n deps seeds).vis \
        (computeUnique (rdepsFn n deps) (traverseAll n deps seeds).vis sizes seeds ∅
          (traverseAll n deps seeds).ord).1) = ∅ ∧
    ∀ a ∈ seeds, a ∈ (traverseAll n deps seeds).vis \
      (computeUnique (rdepsFn n deps) (traverseAll n deps seeds).vis sizes seeds ∅
        (traverseAll n deps seeds).ord).1 := by
  have hsub := computeUnique_shared_subset n deps sizes seeds
  have hsubv : (computeUnique (rdepsFn n deps) (traverseAll n deps seeds).vis sizes seeds ∅
      (traverseAll n deps seeds).ord).1 ⊆ (traverseAll n deps seeds).vis :=
    hsub.trans (Finset.sdiff_subset)
  refine ⟨?_, ?_, ?_⟩
  · rw [Finset.union_sdiff_of_subset hsubv]
  · exact Finset.inter_sdiff_self _ _
  · intro a ha
    refine Finset.mem_sdiff.mpr ⟨seeds_in_vis wf seeds hseeds a ha, fun hc => ?_⟩
    have := hsub hc
    rw [Finset.mem_sdiff, List.mem_toFinset] at this
    exact this.2 ha

/-- Witness for C4 on the concrete graph `exA`. -/
theorem claimC4_witness :
    (computeUnique (rdepsFn 2 exA) (traverseAll 2 exA [0]).vis (fun _ => (1 : Int)) [0] ∅
        (traverseAll 2 exA [0]).ord).1 ∪
      ((traverseAll 2 exA [0]).vis \
        (computeUnique (rdepsFn 2 exA) (traverseAll 2 exA [0]).vis (fun _ => (1 : Int)) [0] ∅
          (traverseAll 2 exA [0]).ord).1) = (traverseAll 2 exA [0]).vis ∧
    (computeUnique (rdepsFn 2 exA) (traverseAll 2 exA [0]).vis (fun _ => (1 : Int)) [0] ∅
        (traverseAll 2 exA [0]).ord).1 ∩
      ((traverseAll 2 exA [0]).vis \
        (computeUnique (rdepsFn 2 exA) (traverseAll 2 exA [0]).vis (fun _ => (1 : Int)) [0] ∅
          (traverseAll 2 exA [0]).ord).1) = ∅ ∧
    ∀ a ∈ [0], a ∈ (traverseAll 2 exA [0]).vis \
      (computeUnique (rdepsFn 2 exA) (traverseAll 2 exA [0]).vis (fun _ => (1 : Int)) [0] ∅
        (traverseAll 2 exA [0]).ord).1 :=
  @claimC4 2 exA (by decide) (fun _ => (1 : Int)) [0] (by decide)

/-- C5: the reported unique size plus the reported shared size equals the
total size of all visited packages. -/
theorem claimC5 {n : ℕ} {deps : ℕ → List ℕ} (wf : Gwf n deps) (sizes : ℕ → Int)
    (seeds : List ℕ) (hseeds : ∀ a ∈ seeds, a < n) :
    (reportSizes n sizes
        (computeUnique (rdepsFn n deps) (traverseAll n deps seeds).vis sizes seeds ∅
          (traverseAll n deps seeds).ord).1 (traverseAll n deps seeds).vis).2 +
      (reportSizes n sizes
        (computeUnique (rdepsFn n deps) (traverseAll n deps seeds).vis sizes seeds ∅
          (traverseAll n deps seeds).ord).1 (traverseAll n deps seeds).vis).1 =
      ∑ i in (traverseAll n deps seeds).vis, sizes i := by
  have hsubv : (computeUnique (rdepsFn n deps) (traverseAll n deps seeds).vis sizes seeds ∅
      (traverseAll n deps seeds).ord).1 ⊆ (traverseAll n deps seeds).vis :=
    (computeUnique_shared_subset n deps sizes seeds).trans Finset.sdiff_subset
  rw [reportSizes_add sizes _ _ hsubv n]
  congr 1
  rw [Finset.filter_mem_eq_inter]
  exact Finset.inter_eq_right.mpr (traverseAll_vis_range wf seeds hseeds)

/-- Witness for C5 on the concrete graph `exA`. -/
theorem claimC5_witness :
    (reportSizes 2 (fun _ => (1 : Int))
        (computeUnique (rdepsFn 2 exA) (traverseAll 2 exA [0]).vis (fun _ => (1 : Int)) [0] ∅
          (traverseAll 2 exA [0]).ord).1 (traverseAll 2 exA [0]).vis).2 +
      (reportSizes 2 (fun _ => (1 : Int))
        (computeUnique (rdepsFn 2 exA) (traverseAll 2 exA [0]).vis (fun _ => (1 : Int)) [0] ∅
          (traverseAll 2 exA [0]).ord).1 (traverseAll 2 exA [0]).vis).1 =
      ∑ i in (traverseAll 2 exA [0]).vis, (fun _ => (1 : Int)) i :=
  @claimC5 2 exA (by decide) (fun _ => (1 : Int)) [0] (by decide)

/-- The unique cost a singleton-seed closure computes in isolation, i.e.
starting from all-zero working arrays. -/
def isolatedUnique (n : ℕ) (deps : ℕ → List ℕ) (sizes : ℕ → Int) (i : ℕ) : Int :=
  (computeUnique (rdepsFn n deps) (dfs deps (n + 1) i St.zero).vis sizes [i] ∅
    (dfs deps (n + 1) i St.zero).ord).2

/-- One iteration of the no-seed report loop of `Pkgtrim`: skip kept-out
ids; otherwise traverse from `i` into the shared working state, compute the
singleton-seed unique size, record it, and reset the working arrays by
clearing exactly the marks of the nodes in the order buffer. -/
def noArgsStep (n : ℕ) (deps : ℕ → List ℕ) (sizes : ℕ → Int) (keep : ℕ → Bool)
    (acc : (St × Finset ℕ) × List (ℕ × Int)) (i : ℕ) : (St × Finset ℕ) × List (ℕ × Int) :=
  if keep i then
    let st := dfs deps (n + 1) i acc.1.1
    let r := computeUnique (rdepsFn n deps) st.vis sizes [i] acc.1.2 st.ord
    ((⟨st.vis \ st.ord.toFinset, []⟩, r.1 \ st.ord.toFinset), acc.2 ++ [(i, r.2)])
  else acc

/-- The whole no-seed report loop over all package ids. -/
def noArgsLoop (n : ℕ) (deps : ℕ → List ℕ) (sizes : ℕ → Int) (keep : ℕ → Bool) :
    (St × Finset ℕ) × List (ℕ × Int) :=
  (List.range n).foldl (noArgsStep n deps sizes keep) ((St.zero, ∅), [])

lemma dfs_eq_dfsL_single (deps : ℕ → List ℕ) (fuel i : ℕ) (s : St) :
    dfs deps fuel i s = dfsL deps fuel [i] s := rfl

lemma noArgsStep_zero (n : ℕ) (deps : ℕ → List ℕ) (sizes : ℕ → Int) (keep : ℕ → Bool)
    (rec : List (ℕ × Int)) (i : ℕ) :
    noArgsStep n deps sizes keep ((St.zero, ∅), rec) i =
      if keep i then ((St.zero, ∅), rec ++ [(i, isolatedUnique n deps sizes i)])
      else ((St.zero, ∅), rec) := by
  by_cases hk : keep i
  · have hset := (dfsL_zero_ord deps (n + 1) [i]).2
    rw [← dfs_eq_dfsL_single] at hset
    have hvz : (dfs deps (n + 1) i St.zero).vis \
        (dfs deps (n + 1) i St.zero).ord.toFinset = ∅ := by
      rw [hset, Finset.sdiff_self]
    have hsz : (computeUnique (rdepsFn n deps) (dfs deps (n + 1) i St.zero).vis sizes [i] ∅
        (dfs deps (n + 1) i St.zero).ord).1 \
        (dfs deps (n + 1) i St.zero).ord.toFinset = ∅ := by
      have h := cu_fold_subset (rdepsFn n deps) (dfs deps (n + 1) i St.zero).vis sizes [i]
        (dfs deps (n + 1) i St.zero).ord.reverse ∅ 0
      rw [Finset.sdiff_eq_empty_iff_subset]
      refine subset_trans (by simpa [computeUnique] using h) ?_
      exact Finset.sdiff_subset
    unfold noArgsStep
    rw [if_pos hk, if_pos hk]
    dsimp only
    rw [hvz, hsz]
    rfl
  · unfold noArgsStep
    rw [if_neg hk, if_neg hk]

lemma noArgsLoop_fold (n : ℕ) (deps : ℕ → List ℕ) (sizes : ℕ → Int) (keep : ℕ → Bool) :
    ∀ (L : List ℕ) (rec : List (ℕ × Int)),
      L.foldl (noArgsStep n deps sizes keep) ((St.zero, ∅), rec) =
        ((St.zero, ∅), rec ++ (L.filter keep).map
          (fun i => (i, isolatedUnique n deps sizes i))) := by
  intro L
  induction L with
  | nil => intro rec; simp
  | cons i L ihl =>
    intro rec
    rw [List.foldl_cons, noArgsStep_zero]
    by_cases hk : keep i
    · rw [if_pos hk, ihl, List.filter_cons_of_pos hk]
      simp
    · rw [if_neg hk, ihl, List.filter_cons_of_neg hk]

/-- C9: in the no-seed report, the working arrays (visited marks, shared
marks, order buffer) are restored to their zero state after every processed
package (first conjunct, for an arbitrary processing prefix), and therefore
every recorded unique cost equals the cost a singleton-seed closure
computes in isolation from zero state, independent of iteration order. -/
theorem claimC9 (n : ℕ) (deps : ℕ → List ℕ) (sizes : ℕ → Int) (keep : ℕ → Bool) :
    (∀ L : List ℕ,
      (L.foldl (noArgsStep n deps sizes keep) ((St.zero, ∅), [])).1 = (St.zero, ∅)) ∧
    (noArgsLoop n deps sizes keep).2 =
      ((List.range n).filter keep).map (fun i => (i, isolatedUnique n deps sizes i)) := by
  constructor
  · intro L
    rw [noArgsLoop_fold]
  · unfold noArgsLoop
    rw [noArgsLoop_fold]
    simp

/-- Glob part matcher for the regexes produced by `makeRE`: the parts of a
glob (split on `*`) must occur in order, the first anchored at the start
and the last at the end, exactly as `p1.*p2.* ... .*pk` matches when
anchored on both sides. -/
def matchSeq : List (List Char) → List Char → Bool
  | [], s => s.isEmpty
  | [p], s => decide (s = p)
  | p :: ps, s => p.isPrefixOf s &&
      ((List.range (s.length + 1)).any fun k => matchSeq ps ((s.drop p.length).drop k))

/-- Split a glob on the `*` wildcard, as `strings.Split(glob, "*")` does in
`makeRE`. -/
def splitStar : List Char → List (List Char)
  | [] => [[]]
  | c :: cs =>
    match splitStar cs with
    | [] => [[]]
    | p :: ps => if c = '*' then [] :: p :: ps else (c :: p) :: ps

/-- Semantics of the single anchored regex `makeRE` compiles from the glob
set: with no globs the regex is `^()$`, which matches only the empty name;
otherwise a name matches iff it matches at least one glob, with `*`
standing for any substring. -/
def makeREmatch (globs : List String) (name : String) : Bool :=
  match globs with
  | [] => name == ""
  | _ => globs.any fun g => matchSeq (splitStar g.toList) name.toList

/-- Package-name to id lookup built by `Pkgtrim` (`pkgids` map); an absent
name yields the Go map zero value 0. -/
def lookupId (pkgs : List Package) (name : String) : ℕ :=
  if pkgs.any (fun p => p.name == name) then pkgs.findIdx (fun p => p.name == name) else 0

/-- Forward adjacency `deps` of the dependency graph built by `Pkgtrim`. -/
def depsOf (pkgs : List Package) (i : ℕ) : List ℕ :=
  match pkgs[i]? with
  | some p => p.deps.map (lookupId pkgs)
  | none => []

/-- Reverse adjacency `rdeps` of the dependency graph built by `Pkgtrim`. -/
def rdepsOf (pkgs : List Package) : ℕ → List ℕ :=
  rdepsFn pkgs.length (depsOf pkgs)

/-- Name of the package with a given id. -/
def nameOf (pkgs : List Package) (i : ℕ) : String :=
  match pkgs[i]? with
  | some p => p.name
  | none => ""

/-- Closed-world catalog invariant: names are unique and every declared
dependency name is itself a catalog name. -/
def CatalogWF (pkgs : List Package) : Prop :=
  (pkgs.map Package.name).Nodup ∧
  ∀ p ∈ pkgs, ∀ d ∈ p.deps, d ∈ pkgs.map Package.name

instance (pkgs : List Package) : Decidable (CatalogWF pkgs) := by
  unfold CatalogWF; infer_instance

lemma lookupId_lt {pkgs : List Package} {name : String}
    (h : name ∈ pkgs.map Package.name) : lookupId pkgs name < pkgs.length := by
  obtain ⟨p, hp, hpn⟩ := List.mem_map.mp h
  have hany : pkgs.any (fun q => q.name == name) = true :=
    List.any_eq_true.mpr ⟨p, hp, by simp [hpn]⟩
  unfold lookupId
  rw [if_pos hany]
  exact List.findIdx_lt_length_of_exists ⟨p, hp, by simp [hpn]⟩

lemma depsOf_wf {pkgs : List Package} (h : CatalogWF pkgs) :
    Gwf pkgs.length (depsOf pkgs) := by
  intro i hi d hd
  unfold depsOf at hd
  rw [List.getElem?_eq_getElem hi] at hd
  simp only [List.mem_map] at hd
  obtain ⟨d0, hd0, rfl⟩ := hd
  exact lookupId_lt (h.2 pkgs[i] (List.getElem_mem hi) d0 hd0)

/-- Embedding of the `remove` helper of `Pkgtrim` (the protected removal
planner): reset the working arrays, forward-traverse from every candidate
whose name matches the intent predicate, keep the candidates whose id got
visited (first component) and return the rest for removal (second
component). -/
def removePlan (pkgs : List Package) (globs : List String) (toremove : List String) :
    List String × List String :=
  let ids := (toremove.filter (fun c => makeREmatch globs c)).map (lookupId pkgs)
  let st := dfsL (depsOf pkgs) (pkgs.length + 1) ids St.zero
  (toremove.filter (fun c => decide (lookupId pkgs c ∈ st.vis)),
   toremove.filter (fun c => decide (lookupId pkgs c ∉ st.vis)))

lemma removePlan_vis {pkgs : List Package} {globs : List String} {toremove : List String}
    (hwf : CatalogWF pkgs) (hcand : ∀ c ∈ toremove, c ∈ pkgs.map Package.name) :
    ∀ v, v ∈ (dfsL (depsOf pkgs) (pkgs.length + 1)
        ((toremove.filter (fun c => makeREmatch globs c)).map (lookupId pkgs)) St.zero).vis ↔
      ∃ m ∈ toremove, makeREmatch globs m = true ∧
        Reach (depsOf pkgs) (lookupId pkgs m) v := by
  intro v
  have hids : ∀ a ∈ (toremove.filter (fun c => makeREmatch globs c)).map (lookupId pkgs),
      a < pkgs.length := by
    intro a ha
    obtain ⟨c, hc, rfl⟩ := List.mem_map.mp ha
    exact lookupId_lt (hcand c (List.mem_of_mem_filter hc))
  have h := (dfsL_closed_exact (depsOf_wf hwf)
    ((toremove.filter (fun c => makeREmatch globs c)).map (lookupId pkgs)) St.zero hids
    (by intro x hx; simp [St.zero] at hx) (by intro x hx d _; simp [St.zero] at hx)).2 v
  rw [h]
  constructor
  · rintro (h2 | ⟨a, ha, hr⟩)
    · simp [St.zero] at h2
    · obtain ⟨c, hc, rfl⟩ := List.mem_map.mp ha
      exact ⟨c, List.mem_of_mem_filter hc, List.of_mem_filter hc, hr⟩
  · rintro ⟨m, hm, hmmatch, hr⟩
    refine Or.inr ⟨lookupId pkgs m, List.mem_map.mpr ⟨m, List.mem_filter.mpr ⟨hm, hmmatch⟩, rfl⟩, hr⟩

/-- C3: `planRemoval` returns exactly the candidates not forward-reachable
from any candidate matching the intent predicate, and records every other
candidate in the kept list. -/
theorem claimC3 {pkgs : List Package} {globs : List String} {toremove : List String}
    (hwf : CatalogWF pkgs) (hcand : ∀ c ∈ toremove, c ∈ pkgs.map Package.name) :
    ∀ c ∈ toremove,
      (c ∈ (removePlan pkgs globs toremove).2 ↔
        ¬ ∃ m ∈ toremove, makeREmatch globs m = true ∧
          Reach (depsOf pkgs) (lookupId pkgs m) (lookupId pkgs c)) ∧
      (c ∈ (removePlan pkgs globs toremove).1 ↔
        ∃ m ∈ toremove, makeREmatch globs m = true ∧
          Reach (depsOf pkgs) (lookupId pkgs m) (lookupId pkgs c)) := by
  intro c hc
  have hv := @removePlan_vis pkgs globs toremove hwf hcand
  constructor
  · unfold removePlan
    rw [List.mem_filter]
    simp only [hc, true_and, decide_eq_true_eq]
    rw [hv (lookupId pkgs c)]
  · unfold removePlan
    rw [List.mem_filter]
    simp only [hc, true_and, decide_eq_true_eq]
    rw [hv (lookupId pkgs c)]

/-- C2 counterexample to the claim as stated: an intentional catalog
package that is not itself a removal candidate protects nothing.  With
catalog P (depends on Q), Q, intent pattern `P`, candidate list `[Q]`, the
planner returns Q although Q is reachable from the intent-matching catalog
name P. -/
theorem claimC2_counterexample :
    "Q" ∈ (removePlan [⟨"P", "", 0, ["Q"]⟩, ⟨"Q", "", 0, []⟩] ["P"] ["Q"]).2 ∧
    "P" ∈ ([⟨"P", "", 0, ["Q"]⟩, ⟨"Q", "", 0, []⟩] : List Package).map Package.name ∧
    makeREmatch ["P"] "P" = true ∧
    Reach (depsOf [⟨"P", "", 0, ["Q"]⟩, ⟨"Q", "", 0, []⟩])
      (lookupId [⟨"P", "", 0, ["Q"]⟩, ⟨"Q", "", 0, []⟩] "P")
      (lookupId [⟨"P", "", 0, ["Q"]⟩, ⟨"Q", "", 0, []⟩] "Q") :=
  ⟨by decide, by decide, by decide, Relation.ReflTransGen.single (by decide)⟩

/-- C2 (amended): `planRemoval` never returns a name forward-reachable from
any candidate whose name matches the intent predicate. -/
theorem claimC2_amended {pkgs : List Package} {globs : List String} {toremove : List String}
    (hwf : CatalogWF pkgs) (hcand : ∀ c ∈ toremove, c ∈ pkgs.map Package.name) :
    ∀ c ∈ (removePlan pkgs globs toremove).2, ∀ m ∈ toremove,
      makeREmatch globs m = true →
      ¬ Reach (depsOf pkgs) (lookupId pkgs m) (lookupId pkgs c) := by
  intro c hc m hm hmatch hr
  have hcmem : c ∈ toremove := by
    unfold removePlan at hc
    exact List.mem_of_mem_filter hc
  have hnv : lookupId pkgs c ∉ (dfsL (depsOf pkgs) (pkgs.length + 1)
      ((toremove.filter (fun c => makeREmatch globs c)).map (lookupId pkgs)) St.zero).vis := by
    unfold removePlan at hc
    rw [List.mem_filter] at hc
    simpa using hc.2
  exact hnv ((removePlan_vis hwf hcand (lookupId pkgs c)).mpr ⟨m, hm, hmatch, hr⟩)

/-- Witness for the amended C2 on the catalog P → Q, Q, R with intent `P`
and candidates P, Q, R: the returned candidate R is not reachable from the
matching candidate P. -/
theorem claimC2_witness :
    ¬ Reach (depsOf [⟨"P", "", 0, ["Q"]⟩, ⟨"Q", "", 0, []⟩, ⟨"R", "", 0, []⟩])
      (lookupId [⟨"P", "", 0, ["Q"]⟩, ⟨"Q", "", 0, []⟩, ⟨"R", "", 0, []⟩] "P")
      (lookupId [⟨"P", "", 0, ["Q"]⟩, ⟨"Q", "", 0, []⟩, ⟨"R", "", 0, []⟩] "R") :=
  @claimC2_amended [⟨"P", "", 0, ["Q"]⟩, ⟨"Q", "", 0, []⟩, ⟨"R", "", 0, []⟩] ["P"]
    ["P", "Q", "R"] (by decide) (by decide) "R" (by decide) "P" (by decide) (by decide)

/-- Witness for C3 on the catalog P → Q, Q, R with intent `P` and
candidates P, Q, R, at the candidate R. -/
theorem claimC3_witness :
    ("R" ∈ (removePlan [⟨"P", "", 0, ["Q"]⟩, ⟨"Q", "", 0, []⟩, ⟨"R", "", 0, []⟩]
        ["P"] ["P", "Q", "R"]).2 ↔
      ¬ ∃ m ∈ ["P", "Q", "R"], makeREmatch ["P"] m = true ∧
        Reach (depsOf [⟨"P", "", 0, ["Q"]⟩, ⟨"Q", "", 0, []⟩, ⟨"R", "", 0, []⟩])
          (lookupId [⟨"P", "", 0, ["Q"]⟩, ⟨"Q", "", 0, []⟩, ⟨"R", "", 0, []⟩] m)
          (lookupId [⟨"P", "", 0, ["Q"]⟩, ⟨"Q", "", 0, []⟩, ⟨"R", "", 0, []⟩] "R")) ∧
    ("R" ∈ (removePlan [⟨"P", "", 0, ["Q"]⟩, ⟨"Q", "", 0, []⟩, ⟨"R", "", 0, []⟩]
        ["P"] ["P", "Q", "R"]).1 ↔
      ∃ m ∈ ["P", "Q", "R"], makeREmatch ["P"] m = true ∧
        Reach (depsOf [⟨"P", "", 0, ["Q"]⟩, ⟨"Q", "", 0, []⟩, ⟨"R", "", 0, []⟩])
          (lookupId [⟨"P", "", 0, ["Q"]⟩, ⟨"Q", "", 0, []⟩, ⟨"R", "", 0, []⟩] m)
          (lookupId [⟨"P", "", 0, ["Q"]⟩, ⟨"Q", "", 0, []⟩, ⟨"R", "", 0, []⟩] "R")) :=
  claimC3 (by decide) (by decide) "R" (by decide)

/-- Top-level unintentional selection of the no-seed mode of `Pkgtrim`: the
ids with empty `rdeps` whose name does not match the intent predicate. -/
def topUnintentional (pkgs : List Package) (globs : List String) : List ℕ :=
  (List.range pkgs.length).filter fun i =>
    decide (rdepsOf pkgs i = []) && !(makeREmatch globs (nameOf pkgs i))

/-- C10: with an empty declared intent pattern set the compiled predicate
matches only the empty string, so every package with a non-empty name is
unintentional and the top-level unintentional selection degenerates to the
plain top-level selection. -/
theorem claimC10 :
    (∀ name : String, name ≠ "" → makeREmatch [] name = false) ∧
    ∀ pkgs : List Package, (∀ p ∈ pkgs, p.name ≠ "") →
      topUnintentional pkgs [] = (List.range pkgs.length).filter
        (fun i => decide (rdepsOf pkgs i = [])) := by
  have h1 : ∀ name : String, name ≠ "" → makeREmatch [] name = false := by
    intro name hne
    unfold makeREmatch
    simpa using hne
  refine ⟨h1, fun pkgs hn => ?_⟩
  unfold topUnintentional
  refine List.filter_congr ?_
  intro i hi
  rw [List.mem_range] at hi
  have hname : nameOf pkgs i ≠ "" := by
    unfold nameOf
    rw [List.getElem?_eq_getElem hi]
    exact hn pkgs[i] (List.getElem_mem hi)
  rw [h1 _ hname]
  simp

/-- Witness for C10 at a concrete non-empty name and a concrete catalog. -/
theorem claimC10_witness :
    makeREmatch [] "gcc" = false ∧
    topUnintentional [⟨"P", "", 0, ["Q"]⟩, ⟨"Q", "", 0, []⟩] [] =
      (List.range 2).filter
        (fun i => decide (rdepsOf [⟨"P", "", 0, ["Q"]⟩, ⟨"Q", "", 0, []⟩] i = [])) :=
  ⟨claimC10.1 "gcc" (by decide), claimC10.2 [⟨"P", "", 0, ["Q"]⟩, ⟨"Q", "", 0, []⟩] (by decide)⟩

/-- Embedding of `findpaths` from the `-trace` mode of `Pkgtrim`: a
backward depth-first search from `pkg` along `rdeps` restricted to the
visited set, carrying the accumulated path (destination first) and emitting
its reverse whenever `src` is reached.  The Go recursion is unbounded and
has no on-path revisit check; `fuel` bounds the depth and `none` models
non-termination. -/
def findpathsF (rdeps : ℕ → List ℕ) (vis : Finset ℕ) (src : ℕ) :
    ℕ → ℕ → List ℕ → Option (List (List ℕ))
  | 0, _, _ => none
  | fuel + 1, pkg, path =>
    if pkg = src then some [path.reverse]
    else
      (rdeps pkg).foldl
        (fun acc r =>
          match acc with
          | none => none
          | some ps =>
            if r ∈ vis then
              match findpathsF rdeps vis src fuel r (path ++ [r]) with
              | none => none
              | some qs => some (ps ++ qs)
            else some ps)
        (some [])

/-- Loop body of the backward search of `findpaths`, one reverse
dependency at a time. -/
def fpStep (rdeps : ℕ → List ℕ) (vis : Finset ℕ) (src fuel : ℕ) (path : List ℕ)
    (acc : Option (List (List ℕ))) (r : ℕ) : Option (List (List ℕ)) :=
  match acc with
  | none => none
  | some ps =>
    if r ∈ vis then
      match findpathsF rdeps vis src fuel r (path ++ [r]) with
      | none => none
      | some qs => some (ps ++ qs)
    else some ps

lemma findpathsF_zero (rdeps : ℕ → List ℕ) (vis : Finset ℕ) (src pkg : ℕ) (path : List ℕ) :
    findpathsF rdeps vis src 0 pkg path = none := rfl

lemma findpathsF_succ (rdeps : ℕ → List ℕ) (vis : Finset ℕ) (src fuel pkg : ℕ)
    (path : List ℕ) :
    findpathsF rdeps vis src (fuel + 1) pkg path =
      if pkg = src then some [path.reverse]
      else (rdeps pkg).foldl (fpStep rdeps vis src fuel path) (some []) := rfl

lemma chain'_imp_mem {α : Type} {R S : α → α → Prop} :
    ∀ {l : List α}, (∀ a ∈ l, ∀ b ∈ l, R a b → S a b) → l.Chain' R → l.Chain' S := by
  intro l
  induction l with
  | nil => intro _ _; exact List.chain'_nil
  | cons a t iht =>
    intro h hc
    cases t with
    | nil => exact List.chain'_singleton a
    | cons b t2 =>
      rw [List.chain'_cons] at hc ⊢
      refine ⟨h a (by simp) b (by simp) hc.1, iht ?_ hc.2⟩
      intro x hx y hy hr
      exact h x (List.mem_cons_of_mem a hx) y (List.mem_cons_of_mem a hy) hr

/-- Along a backward `rdeps` chain the final element forward-reaches every
element of the chain. -/
lemma revchain_reach {n : ℕ} {deps : ℕ → List ℕ} :
    ∀ (path : List ℕ) (pkg : ℕ), path.getLast? = some pkg →
      path.Chain' (fun a b => b ∈ rdepsFn n deps a) →
      ∀ x ∈ path, Reach deps pkg x := by
  intro path
  induction path using List.reverseRecOn with
  | nil => intro pkg h; simp at h
  | append_singleton ys a ih =>
    intro pkg hlast hchain x hx
    rw [List.getLast?_concat] at hlast
    have ha : a = pkg := Option.some.inj hlast
    subst ha
    rcases List.mem_append.mp hx with hx | hx
    · have hysne : ys ≠ [] := by rintro rfl; simp at hx
      cases hy : ys.getLast? with
      | none => exact absurd (List.getLast?_eq_none_iff.mp hy) hysne
      | some yl =>
        obtain ⟨hc1, _, hlink⟩ := List.chain'_append.mp hchain
        have hstep : a ∈ rdepsFn n deps yl := hlink yl hy a (by simp)
        rw [mem_rdepsFn] at hstep
        have h1 : Reach deps a yl := Relation.ReflTransGen.single hstep.2
        exact h1.trans (ih yl hy hc1 x hx)
    · rw [List.mem_singleton] at hx
      rw [hx]
      exact Relation.ReflTransGen.refl

/-- A backward `rdeps` chain on a ranked acyclic graph has strictly
increasing rank, hence no duplicates. -/
lemma revchain_nodup {n : ℕ} {deps : ℕ → List ℕ} {rank : ℕ → ℕ}
    (hrk : RankedDAG n deps rank) (path : List ℕ)
    (hchain : path.Chain' (fun a b => b ∈ rdepsFn n deps a)) : path.Nodup := by
  have hrank : path.Chain' (fun a b => rank a < rank b) := by
    refine chain'_imp_mem (fun a _ b _ hab => ?_) hchain
    rw [mem_rdepsFn] at hab
    exact hrk b hab.1 a hab.2
  haveI : IsTrans ℕ (fun a b => rank a < rank b) := ⟨fun _ _ _ h1 h2 => lt_trans h1 h2⟩
  have hpw : path.Pairwise (fun a b => rank a < rank b) :=
    List.chain'_iff_pairwise.mp hrank
  refine hpw.imp ?_
  intro a b hab
  intro he
  rw [he] at hab
  omega

/-- Every element of a forward dependency chain is reachable from its
head. -/
lemma fwdchain_reach {deps : ℕ → List ℕ} :
    ∀ (L : List ℕ) (h : ℕ), L.head? = some h → L.Chain' (Step deps) →
      ∀ x ∈ L, Reach deps h x := by
  intro L
  induction L with
  | nil => intro h hh; simp at hh
  | cons a t iht =>
    intro h hh hc x hx
    have ha : a = h := Option.some.inj hh
    subst ha
    rcases List.mem_cons.mp hx with hx | hx
    · rw [hx]
      exact Relation.ReflTransGen.refl
    · cases t with
      | nil => simp at hx
      | cons b t2 =>
        rw [List.chain'_cons] at hc
        have h1 : Reach deps b x := iht b rfl hc.2 x hx
        exact Relation.ReflTransGen.head hc.1 h1

/-- Characterization of the paths `findpaths` emits while its accumulated
path is `path`: reversals of the backward chains that extend `path` inside
the visited set and end at `src`. -/
def EmitsFrom (n : ℕ) (deps : ℕ → List ℕ) (vis : Finset ℕ) (src : ℕ)
    (path L : List ℕ) : Prop :=
  ∃ ext, L = (path ++ ext).reverse ∧
    (path ++ ext).Chain' (fun a b => b ∈ rdepsFn n deps a) ∧
    (∀ x ∈ ext, x ∈ vis) ∧
    (path ++ ext).getLast? = some src

/-- Main lemma about `findpaths` on an acyclic graph whose visited set is
forward-reachable from `src`: with enough fuel the search terminates and
emits exactly the paths characterized by `EmitsFrom`. -/
lemma fp_main {n : ℕ} {deps : ℕ → List ℕ} {rank : ℕ → ℕ} (wf : Gwf n deps)
    (hrk : RankedDAG n deps rank) {vis : Finset ℕ} {src : ℕ}
    (hvr : vis ⊆ Finset.range n) (hsrc : src < n)
    (hvreach : ∀ x ∈ vis, Reach deps src x) :
    ∀ (fuel pkg : ℕ) (path : List ℕ),
      path.getLast? = some pkg →
      path.Chain' (fun a b => b ∈ rdepsFn n deps a) →
      (∀ x ∈ path, x ∈ vis) →
      (vis \ path.toFinset).card < fuel →
      ∃ ps, findpathsF (rdepsFn n deps) vis src fuel pkg path = some ps ∧
        ∀ L, L ∈ ps ↔ EmitsFrom n deps vis src path L := by
  intro fuel
  induction fuel with
  | zero => intro pkg path _ _ _ hf; omega
  | succ f ih =>
    intro pkg path hplast hpchain hpvis hfuel
    rw [findpathsF_succ]
    by_cases hps : pkg = src
    · rw [if_pos hps]
      refine ⟨[path.reverse], rfl, fun L => ?_⟩
      rw [List.mem_singleton]
      constructor
      · intro hL
        exact ⟨[], by simpa using hL, by simpa using hpchain, by simp,
          by rw [List.append_nil, hplast, hps]⟩
      · rintro ⟨ext, hLe, hchain, hvise, hlaste⟩
        cases ext with
        | nil => simpa using hLe
        | cons e ext2 =>
          exfalso
          obtain ⟨_, _, hlink⟩ := List.chain'_append.mp hchain
          have hE : e ∈ rdepsFn n deps pkg :=
            hlink pkg (Option.mem_def.mpr hplast) e (by simp)
          rw [mem_rdepsFn] at hE
          have hEv : e ∈ vis := hvise e (by simp)
          have hre : Reach deps src e := hvreach e hEv
          rw [hps] at hE
          exact reach_step_false wf hrk hre hE.2 hsrc
    · rw [if_neg hps]
      have hpkgmem : pkg ∈ path := by
        cases hpe : path with
        | nil => rw [hpe] at hplast; simp at hplast
        | cons a t =>
          rw [← hpe]
          exact List.mem_of_mem_getLast? (Option.mem_def.mpr hplast)
      have hpkgn : pkg < n := Finset.mem_range.mp (hvr (hpvis pkg hpkgmem))
      have haux : ∀ (l : List ℕ), (∀ r ∈ l, r ∈ rdepsFn n deps pkg) →
          ∀ (ps0 : List (List ℕ)),
          ∃ ps, l.foldl (fpStep (rdepsFn n deps) vis src f path) (some ps0) = some ps ∧
            ∀ L, L ∈ ps ↔ (L ∈ ps0 ∨
              ∃ r ∈ l, r ∈ vis ∧ EmitsFrom n deps vis src (path ++ [r]) L) := by
        intro l
        induction l with
        | nil =>
          intro _ ps0
          exact ⟨ps0, rfl, fun L => by simp⟩
        | cons r l2 ihl =>
          intro hl ps0
          have hrR : r ∈ rdepsFn n deps pkg := hl r (List.mem_cons_self r l2)
          rw [List.foldl_cons]
          by_cases hrv : r ∈ vis
          · have hrnp : r ∉ path := by
              intro hrp
              have hreachp : Reach deps pkg r :=
                revchain_reach path pkg hplast hpchain r hrp
              rw [mem_rdepsFn] at hrR
              exact reach_step_false wf hrk hreachp hrR.2 hpkgn
            have hcard : (vis \ (path ++ [r]).toFinset).card < f := by
              have hseteq : vis \ (path ++ [r]).toFinset =
                  (vis \ path.toFinset).erase r := by
                ext x
                simp only [Finset.mem_sdiff, List.toFinset_append, Finset.mem_union,
                  List.mem_toFinset, Finset.mem_erase, List.toFinset_cons,
                  List.toFinset_nil, insert_emptyc_eq, Finset.mem_singleton,
                  Finset.not_mem_empty, or_false, not_or]
                tauto
              have hrmem : r ∈ vis \ path.toFinset :=
                Finset.mem_sdiff.mpr ⟨hrv, by rw [List.mem_toFinset]; exact hrnp⟩
              rw [hseteq, Finset.card_erase_of_mem hrmem]
              have hpos : 0 < (vis \ path.toFinset).card := Finset.card_pos.mpr ⟨r, hrmem⟩
              omega
            have hlast2 : (path ++ [r]).getLast? = some r := List.getLast?_concat path
            have hchain2 : (path ++ [r]).Chain' (fun a b => b ∈ rdepsFn n deps a) := by
              rw [List.chain'_append]
              refine ⟨hpchain, List.chain'_singleton r, ?_⟩
              intro x hx y hy
              have hx2 : x = pkg := by
                rw [hplast] at hx
                exact (Option.some.inj (Option.mem_def.mp hx)).symm
              have hy2 : y = r := by
                rw [List.head?_cons] at hy
                exact (Option.some.inj (Option.mem_def.mp hy)).symm
              rw [hx2, hy2]
              exact hrR
            have hvis2 : ∀ x ∈ path ++ [r], x ∈ vis := by
              intro x hx
              rcases List.mem_append.mp hx with h | h
              · exact hpvis x h
              · rw [List.mem_singleton] at h
                rw [h]
                exact hrv
            obtain ⟨qs, hqs, hqiff⟩ := ih r (path ++ [r]) hlast2 hchain2 hvis2 hcard
            have hstepeq : fpStep (rdepsFn n deps) vis src f path (some ps0) r =
                some (ps0 ++ qs) := by
              have h0 : fpStep (rdepsFn n deps) vis src f path (some ps0) r =
                  if r ∈ vis then
                    (match findpathsF (rdepsFn n deps) vis src f r (path ++ [r]) with
                      | none => none
                      | some qs2 => some (ps0 ++ qs2))
                  else some ps0 := rfl
              rw [h0, if_pos hrv, hqs]
            rw [hstepeq]
            obtain ⟨ps, hps2, hpsiff⟩ :=
              ihl (fun r2 hr2 => hl r2 (List.mem_cons_of_mem r hr2)) (ps0 ++ qs)
            refine ⟨ps, hps2, fun L => ?_⟩
            rw [hpsiff L, List.mem_append]
            constructor
            · rintro ((h | h) | ⟨r2, hr2, hr2v, he⟩)
              · exact Or.inl h
              · exact Or.inr ⟨r, List.mem_cons_self r l2, hrv, (hqiff L).mp h⟩
              · exact Or.inr ⟨r2, List.mem_cons_of_mem r hr2, hr2v, he⟩
            · rintro (h | ⟨r2, hr2, hr2v, he⟩)
              · exact Or.inl (Or.inl h)
              · rcases List.mem_cons.mp hr2 with h2 | h2
                · subst h2
                  exact Or.inl (Or.inr ((hqiff L).mpr he))
                · exact Or.inr ⟨r2, h2, hr2v, he⟩
          · have hstepeq : fpStep (rdepsFn n deps) vis src f path (some ps0) r =
                some ps0 := by
              have h0 : fpStep (rdepsFn n deps) vis src f path (some ps0) r =
                  if r ∈ vis then
                    (match findpathsF (rdepsFn n deps) vis src f r (path ++ [r]) with
                      | none => none
                      | some qs2 => some (ps0 ++ qs2))
                  else some ps0 := rfl
              rw [h0, if_neg hrv]
            rw [hstepeq]
            obtain ⟨ps, hps2, hpsiff⟩ :=
              ihl (fun r2 hr2 => hl r2 (List.mem_cons_of_mem r hr2)) ps0
            refine ⟨ps, hps2, fun L => ?_⟩
            rw [hpsiff L]
            constructor
            · rintro (h | ⟨r2, hr2, hr2v, he⟩)
              · exact Or.inl h
              · exact Or.inr ⟨r2, List.mem_cons_of_mem r hr2, hr2v, he⟩
            · rintro (h | ⟨r2, hr2, hr2v, he⟩)
              · exact Or.inl h
              · rcases List.mem_cons.mp hr2 with h2 | h2
                · subst h2
                  exact absurd hr2v hrv
                · exact Or.inr ⟨r2, h2, hr2v, he⟩
      obtain ⟨ps, heq, hiff⟩ := haux (rdepsFn n deps pkg) (fun r hr => hr) []
      refine ⟨ps, heq, fun L => ?_⟩
      rw [hiff L]
      simp only [List.not_mem_nil, false_or]
      constructor
      · rintro ⟨r, hrR, hrv, ext2, hLe, hchain, hvise, hlaste⟩
        refine ⟨r :: ext2, ?_, ?_, ?_, ?_⟩
        · rw [hLe]
          congr 1
          simp
        · have : path ++ r :: ext2 = (path ++ [r]) ++ ext2 := by simp
          rw [this]
          exact hchain
        · intro x hx
          rcases List.mem_cons.mp hx with h | h
          · rw [h]; exact hrv
          · exact hvise x h
        · have : path ++ r :: ext2 = (path ++ [r]) ++ ext2 := by simp
          rw [this]
          exact hlaste
      · rintro ⟨ext, hLe, hchain, hvise, hlaste⟩
        cases ext with
        | nil =>
          exfalso
          rw [List.append_nil, hplast] at hlaste
          exact hps (Option.some.inj hlaste)
        | cons e ext2 =>
          obtain ⟨_, _, hlink⟩ := List.chain'_append.mp hchain
          have hE : e ∈ rdepsFn n deps pkg :=
            hlink pkg (Option.mem_def.mpr hplast) e (by simp)
          refine ⟨e, hE, hvise e (by simp), ext2, ?_, ?_, ?_, ?_⟩
          · rw [hLe]
            congr 1
            simp
          · have : (path ++ [e]) ++ ext2 = path ++ e :: ext2 := by simp
            rw [this]
            exact hchain
          · intro x hx
            exact hvise x (List.mem_cons_of_mem e hx)
          · have : (path ++ [e]) ++ ext2 = path ++ e :: ext2 := by simp
            rw [this]
            exact hlaste

/-- Reachability yields a concrete forward dependency chain. -/
lemma reach_path {deps : ℕ → List ℕ} {a b : ℕ} (h : Reach deps a b) :
    ∃ L : List ℕ, L.head? = some a ∧ L.getLast? = some b ∧ L.Chain' (Step deps) := by
  induction h with
  | refl => exact ⟨[a], rfl, rfl, List.chain'_singleton a⟩
  | tail hab hbc ihab =>
    obtain ⟨L, hh, hl, hc⟩ := ihab
    refine ⟨L ++ [_], ?_, List.getLast?_concat L, ?_⟩
    · cases L with
      | nil => simp at hh
      | cons x t => simpa using hh
    · rw [List.chain'_append]
      refine ⟨hc, List.chain'_singleton _, ?_⟩
      intro x hx y hy
      have hx2 : x = _ := (Option.some.inj (Option.mem_def.mp (hl ▸ hx))).symm
      have hy2 : y = _ := (Option.some.inj (Option.mem_def.mp hy)).symm
      rw [hx2, hy2]
      exact hbc

/-- A forward dependency chain of in-range nodes on a ranked acyclic graph
has strictly decreasing rank, hence no duplicates. -/
lemma fwdchain_nodup {n : ℕ} {deps : ℕ → List ℕ} {rank : ℕ → ℕ}
    (hrk : RankedDAG n deps rank) (L : List ℕ) (hb : ∀ x ∈ L, x < n)
    (hchain : L.Chain' (Step deps)) : L.Nodup := by
  have hrank : L.Chain' (fun a b => rank b < rank a) := by
    refine chain'_imp_mem (fun a ha b _ hab => ?_) hchain
    exact hrk a (hb a ha) b hab
  haveI : IsTrans ℕ (fun a b => rank b < rank a) := ⟨fun _ _ _ h1 h2 => lt_trans h2 h1⟩
  have hpw : L.Pairwise (fun a b => rank b < rank a) :=
    List.chain'_iff_pairwise.mp hrank
  refine hpw.imp ?_
  intro a b hab he
  rw [he] at hab
  omega

/-- Enumeration result for the `-trace` search on an acyclic graph: after
the forward traversal from `src`, `findpaths` from `dst` terminates with
fuel `n + 1` and emits exactly the simple forward dependency paths from
`src` to `dst`. -/
lemma trace_enum {n : ℕ} {deps : ℕ → List ℕ} {rank : ℕ → ℕ} (wf : Gwf n deps)
    (hrk : RankedDAG n deps rank) {src dst : ℕ} (hsrc : src < n)
    (hreach : Reach deps src dst) :
    ∃ ps, findpathsF (rdepsFn n deps) (dfs deps (n + 1) src St.zero).vis src (n + 1)
        dst [dst] = some ps ∧
      ∀ L, L ∈ ps ↔ (L.head? = some src ∧ L.getLast? = some dst ∧
        L.Chain' (Step deps) ∧ L.Nodup) := by
  have htrav : dfs deps (n + 1) src St.zero = traverseAll n deps [src] := rfl
  have hsl : ∀ a ∈ [src], a < n := by
    intro a ha
    rw [List.mem_singleton] at ha
    rw [ha]
    exact hsrc
  have hvisiff : ∀ v, v ∈ (dfs deps (n + 1) src St.zero).vis ↔ Reach deps src v := by
    intro v
    rw [htrav, traverseAll_exact wf [src] hsl v]
    simp
  have hvr : (dfs deps (n + 1) src St.zero).vis ⊆ Finset.range n := by
    rw [htrav]
    exact traverseAll_vis_range wf [src] hsl
  have hdv : dst ∈ (dfs deps (n + 1) src St.zero).vis := (hvisiff dst).mpr hreach
  have hfuel : ((dfs deps (n + 1) src St.zero).vis \ ([dst] : List ℕ).toFinset).card
      < n + 1 := by
    have h1 : ((dfs deps (n + 1) src St.zero).vis \ ([dst] : List ℕ).toFinset).card ≤
        (dfs deps (n + 1) src St.zero).vis.card :=
      Finset.card_le_card Finset.sdiff_subset
    have h2 : (dfs deps (n + 1) src St.zero).vis.card ≤ n := by
      have := Finset.card_le_card hvr
      rwa [Finset.card_range] at this
    omega
  obtain ⟨ps, heq, hiff⟩ := fp_main wf hrk hvr hsrc (fun x hx => (hvisiff x).mp hx)
    (n + 1) dst [dst] rfl (List.chain'_singleton dst)
    (by intro x hx; rw [List.mem_singleton] at hx; rw [hx]; exact hdv) hfuel
  refine ⟨ps, heq, fun L => ?_⟩
  rw [hiff L]
  constructor
  · rintro ⟨ext, hLe, hchain, hvise, hlaste⟩
    have hM : ([dst] : List ℕ) ++ ext = dst :: ext := by simp
    rw [hM] at hLe hchain hlaste
    refine ⟨?_, ?_, ?_, ?_⟩
    · rw [hLe, List.head?_reverse]
      exact hlaste
    · rw [hLe, List.getLast?_reverse]
      rfl
    · rw [hLe]
      rw [List.chain'_reverse]
      refine List.Chain'.imp ?_ hchain
      intro a b hab
      rw [mem_rdepsFn] at hab
      exact hab.2
    · rw [hLe]
      rw [List.nodup_reverse]
      exact revchain_nodup hrk (dst :: ext) hchain
  · rintro ⟨hhead, hlaste, hchain, _⟩
    have hbound : ∀ x ∈ L, x ∈ (dfs deps (n + 1) src St.zero).vis := by
      intro x hx
      exact (hvisiff x).mpr (fwdchain_reach L src hhead hchain x hx)
    have hboundn : ∀ x ∈ L, x < n := by
      intro x hx
      exact Finset.mem_range.mp (hvr (hbound x hx))
    cases hMe : L.reverse with
    | nil =>
      exfalso
      have : L = [] := by
        have := congrArg List.reverse hMe
        simpa using this
      rw [this] at hhead
      simp at hhead
    | cons m t =>
      have hm : m = dst := by
        have h1 : L.reverse.head? = some m := by rw [hMe]; rfl
        rw [List.head?_reverse, hlaste] at h1
        exact (Option.some.inj h1).symm
      subst hm
      refine ⟨t, ?_, ?_, ?_, ?_⟩
      · have : L = L.reverse.reverse := (List.reverse_reverse L).symm
        rw [this, hMe]
        simp
      · have hMc : ([m] : List ℕ) ++ t = L.reverse := by rw [hMe]; rfl
        rw [hMc, List.chain'_reverse]
        refine chain'_imp_mem (fun a ha b hb hab => ?_) hchain
        show a ∈ rdepsFn n deps b
        rw [mem_rdepsFn]
        exact ⟨hboundn a ha, hab⟩
      · intro x hx
        refine hbound x ?_
        have : x ∈ L.reverse := by rw [hMe]; exact List.mem_cons_of_mem m hx
        rwa [List.mem_reverse] at this
      · have hMc : ([m] : List ℕ) ++ t = L.reverse := by rw [hMe]; rfl
        rw [hMc, List.getLast?_reverse]
        exact hhead

/-- Diamond example graph: 0 → 1, 0 → 2, 1 → 3, 2 → 3. -/
def exD : ℕ → List ℕ := fun i => [[1, 2], [3], [3], []].getD i []

/-- Cyclic example graph for the trace search: 0 → 1, 1 → 2, 2 → 1. -/
def exC2 : ℕ → List ℕ := fun i => [[1], [2], [1]].getD i []

/-- C7 (amended to acyclic graphs): when `dst` is forward-reachable from
`src` the path search terminates and the set of emitted paths is exactly
the set of simple forward dependency paths from `src` to `dst`. -/
theorem claimC7_amended {n : ℕ} {deps : ℕ → List ℕ} {rank : ℕ → ℕ} (wf : Gwf n deps)
    (hrk : RankedDAG n deps rank) {src dst : ℕ} (hsrc : src < n)
    (hreach : Reach deps src dst) :
    ∃ ps, findpathsF (rdepsFn n deps) (dfs deps (n + 1) src St.zero).vis src (n + 1)
        dst [dst] = some ps ∧
      ∀ L, L ∈ ps ↔ (L.head? = some src ∧ L.getLast? = some dst ∧
        L.Chain' (Step deps) ∧ L.Nodup) :=
  trace_enum wf hrk hsrc hreach

/-- Witness for the amended C7 on the diamond graph. -/
theorem claimC7_witness :
    ∃ ps, findpathsF (rdepsFn 4 exD) (dfs exD 5 0 St.zero).vis 0 5 3 [3] = some ps ∧
      ∀ L, L ∈ ps ↔ (L.head? = some 0 ∧ L.getLast? = some 3 ∧
        L.Chain' (Step exD) ∧ L.Nodup) :=
  @claimC7_amended 4 exD (fun i => 4 - i) (by decide) (by decide) 0 3 (by decide)
    (Relation.ReflTransGen.head (show Step exD 0 1 by decide)
      (Relation.ReflTransGen.single (show Step exD 1 3 by decide)))

/-- On any graph shaped like 1 ⇄ 2 inside the visited set, the backward
search of `findpaths` runs forever: no fuel suffices, whatever the
accumulated path. -/
lemma fp_cycle_none {R : ℕ → List ℕ} {vis : Finset ℕ} (h2 : R 2 = [1]) (h1 : R 1 = [0, 2])
    (hv1 : 1 ∈ vis) (hv2 : 2 ∈ vis) :
    ∀ fuel, (∀ path, findpathsF R vis 0 fuel 2 path = none) ∧
      (∀ path, findpathsF R vis 0 fuel 1 path = none) := by
  intro fuel
  induction fuel with
  | zero => exact ⟨fun path => rfl, fun path => rfl⟩
  | succ f ihf =>
    constructor
    · intro path
      rw [findpathsF_succ, if_neg (by decide : ¬(2 = 0)), h2,
        List.foldl_cons, List.foldl_nil]
      have h0 : fpStep R vis 0 f path (some []) 1 =
          if 1 ∈ vis then
            (match findpathsF R vis 0 f 1 (path ++ [1]) with
              | none => none
              | some qs2 => some ([] ++ qs2))
          else some [] := rfl
      rw [h0, if_pos hv1, ihf.2 (path ++ [1])]
    · intro path
      rw [findpathsF_succ, if_neg (by decide : ¬(1 = 0)), h1,
        List.foldl_cons, List.foldl_cons, List.foldl_nil]
      cases hacc : fpStep R vis 0 f path (some []) 0 with
      | none => rfl
      | some ps =>
        have h0 : fpStep R vis 0 f path (some ps) 2 =
            if 2 ∈ vis then
              (match findpathsF R vis 0 f 2 (path ++ [2]) with
                | none => none
                | some qs2 => some (ps ++ qs2))
            else some ps := rfl
        rw [h0, if_pos hv2, ihf.1 (path ++ [2])]

/-- C7 counterexample: on the cyclic graph 0 → 1 ⇄ 2 the destination 2 is
reachable from 0, yet the path search never terminates: no amount of fuel
makes it produce a result. -/
theorem claimC7_counterexample :
    Reach exC2 0 2 ∧ 2 ∈ (dfs exC2 4 0 St.zero).vis ∧
    ¬ ∃ fuel ps, findpathsF (rdepsFn 3 exC2) (dfs exC2 4 0 St.zero).vis 0 fuel 2 [2]
      = some ps := by
  refine ⟨Relation.ReflTransGen.head (show Step exC2 0 1 by decide)
    (Relation.ReflTransGen.single (show Step exC2 1 2 by decide)), by decide, ?_⟩
  rintro ⟨fuel, ps, h⟩
  rw [(fp_cycle_none (by decide) (by decide) (by decide) (by decide) fuel).1 [2]] at h
  exact Option.noConfusion h

lemma nameOf_lookupId {pkgs : List Package} {name : String}
    (h : name ∈ pkgs.map Package.name) : nameOf pkgs (lookupId pkgs name) = name := by
  obtain ⟨p, hp, hpn⟩ := List.mem_map.mp h
  have hany : pkgs.any (fun q => q.name == name) = true :=
    List.any_eq_true.mpr ⟨p, hp, by simp [hpn]⟩
  have hlt : pkgs.findIdx (fun q => q.name == name) < pkgs.length :=
    List.findIdx_lt_length_of_exists ⟨p, hp, by simp [hpn]⟩
  unfold lookupId nameOf
  rw [if_pos hany, List.getElem?_eq_getElem hlt]
  have hfi := @List.findIdx_getElem Package (fun q => q.name == name) pkgs hlt
  simpa using hfi

lemma lookupId_nameOf {pkgs : List Package} (hnd : (pkgs.map Package.name).Nodup)
    {i : ℕ} (hi : i < pkgs.length) : lookupId pkgs (nameOf pkgs i) = i := by
  have hni : nameOf pkgs i = pkgs[i].name := by
    unfold nameOf
    rw [List.getElem?_eq_getElem hi]
  have hany : pkgs.any (fun q => q.name == nameOf pkgs i) = true :=
    List.any_eq_true.mpr ⟨pkgs[i], List.getElem_mem hi, by simp [hni]⟩
  have hlt : pkgs.findIdx (fun q => q.name == nameOf pkgs i) < pkgs.length :=
    List.findIdx_lt_length_of_exists ⟨pkgs[i], List.getElem_mem hi, by simp [hni]⟩
  unfold lookupId
  rw [if_pos hany]
  have hfi := @List.findIdx_getElem Package (fun q => q.name == nameOf pkgs i) pkgs hlt
  have hpj : (pkgs[pkgs.findIdx (fun q => q.name == nameOf pkgs i)]).name = pkgs[i].name := by
    rw [← hni]
    simpa using hfi
  have hmlen : pkgs.findIdx (fun q => q.name == nameOf pkgs i) <
      (pkgs.map Package.name).length := by
    rwa [List.length_map]
  refine List.getElem?_inj hmlen (by simpa using hnd) ?_
  rw [List.getElem?_map, List.getElem?_map, List.getElem?_eq_getElem hlt,
    List.getElem?_eq_getElem hi]
  simp [hpj]

/-- Embedding of the `-trace` mode of `Pkgtrim`: check both package names
exist, forward-traverse from `src`, fail with the "not a dependency" error
when `dst` was not visited, and otherwise enumerate the dependency paths
with `findpaths` and render them as name sequences.  `fuel` bounds the
recursion depth of the path search; `none` (non-termination in Go) is
surfaced as a distinguished error. -/
def tracePathsF (pkgs : List Package) (fuel : ℕ) (src dst : String) :
    Except String (List (List String)) :=
  if pkgs.any (fun p => p.name == src) then
    if pkgs.any (fun p => p.name == dst) then
      if lookupId pkgs dst ∈
          (dfs (depsOf pkgs) (pkgs.length + 1) (lookupId pkgs src) St.zero).vis then
        match findpathsF (rdepsOf pkgs)
            (dfs (depsOf pkgs) (pkgs.length + 1) (lookupId pkgs src) St.zero).vis
            (lookupId pkgs src) fuel (lookupId pkgs dst) [lookupId pkgs dst] with
        | some pss => Except.ok (pss.map (fun L => L.map (nameOf pkgs)))
        | none => Except.error "trace does not terminate"
      else Except.error ("package " ++ dst ++ " is not a dependency of " ++ src)
    else Except.error ("package " ++ dst ++ " not found")
  else Except.error ("package " ++ src ++ " not found")

/-- The `-trace` mode with the provably sufficient fuel for acyclic
graphs. -/
def tracePaths (pkgs : List Package) (src dst : String) :
    Except String (List (List String)) :=
  tracePathsF pkgs (pkgs.length + 1) src dst

/-- C8 (amended to acyclic catalogs): `tracePaths` returns a non-empty path
list iff the destination is forward-reachable from the source, and
otherwise fails with the "not a dependency" error naming both arguments;
every returned path starts with the source, ends with the destination, and
every consecutive pair is a direct dependency edge. -/
theorem claimC8_amended {pkgs : List Package} {rank : ℕ → ℕ} (hwf : CatalogWF pkgs)
    (hrk : RankedDAG pkgs.length (depsOf pkgs) rank) {src dst : String}
    (hsrc : src ∈ pkgs.map Package.name) (hdst : dst ∈ pkgs.map Package.name) :
    (Reach (depsOf pkgs) (lookupId pkgs src) (lookupId pkgs dst) →
      ∃ pss, tracePaths pkgs src dst = Except.ok pss ∧ pss ≠ [] ∧
        ∀ q ∈ pss, q.head? = some src ∧ q.getLast? = some dst ∧
          q.Chain' (fun a b => lookupId pkgs b ∈ depsOf pkgs (lookupId pkgs a))) ∧
    (¬ Reach (depsOf pkgs) (lookupId pkgs src) (lookupId pkgs dst) →
      tracePaths pkgs src dst =
        Except.error ("package " ++ dst ++ " is not a dependency of " ++ src)) := by
  have wf := depsOf_wf hwf
  have hsi : lookupId pkgs src < pkgs.length := lookupId_lt hsrc
  obtain ⟨p, hp, hpn⟩ := List.mem_map.mp hsrc
  obtain ⟨p2, hp2, hpn2⟩ := List.mem_map.mp hdst
  have hsany : pkgs.any (fun q => q.name == src) = true :=
    List.any_eq_true.mpr ⟨p, hp, by simp [hpn]⟩
  have hdany : pkgs.any (fun q => q.name == dst) = true :=
    List.any_eq_true.mpr ⟨p2, hp2, by simp [hpn2]⟩
  have hsl : ∀ a ∈ [lookupId pkgs src], a < pkgs.length := by
    intro a ha
    rw [List.mem_singleton] at ha
    rw [ha]
    exact hsi
  have hvisiff : ∀ v,
      v ∈ (dfs (depsOf pkgs) (pkgs.length + 1) (lookupId pkgs src) St.zero).vis ↔
        Reach (depsOf pkgs) (lookupId pkgs src) v := by
    intro v
    have htrav : dfs (depsOf pkgs) (pkgs.length + 1) (lookupId pkgs src) St.zero =
        traverseAll pkgs.length (depsOf pkgs) [lookupId pkgs src] := rfl
    rw [htrav, traverseAll_exact wf [lookupId pkgs src] hsl v]
    simp
  constructor
  · intro hreach
    have hdv : lookupId pkgs dst ∈
        (dfs (depsOf pkgs) (pkgs.length + 1) (lookupId pkgs src) St.zero).vis :=
      (hvisiff _).mpr hreach
    obtain ⟨ps, heq, hiff⟩ := trace_enum wf hrk hsi hreach
    have heq2 : findpathsF (rdepsOf pkgs)
        (dfs (depsOf pkgs) (pkgs.length + 1) (lookupId pkgs src) St.zero).vis
        (lookupId pkgs src) (pkgs.length + 1) (lookupId pkgs dst)
        [lookupId pkgs dst] = some ps := heq
    refine ⟨ps.map (fun L => L.map (nameOf pkgs)), ?_, ?_, ?_⟩
    · unfold tracePaths tracePathsF
      rw [if_pos hsany, if_pos hdany, if_pos hdv, heq2]
    · obtain ⟨L, hh, hl, hc⟩ := reach_path hreach
      have hLb : ∀ x ∈ L, x < pkgs.length := fun x hx =>
        reach_lt wf (fwdchain_reach L _ hh hc x hx) hsi
      have hLnd : L.Nodup := fwdchain_nodup hrk L hLb hc
      have hLmem : L ∈ ps := (hiff L).mpr ⟨hh, hl, hc, hLnd⟩
      exact List.ne_nil_of_mem (List.mem_map_of_mem _ hLmem)
    · intro q hq
      obtain ⟨L, hLmem, hqL⟩ := List.mem_map.mp hq
      obtain ⟨hh, hl, hc, _⟩ := (hiff L).mp hLmem
      have hLb : ∀ x ∈ L, x < pkgs.length := fun x hx =>
        reach_lt wf (fwdchain_reach L _ hh hc x hx) hsi
      subst hqL
      refine ⟨?_, ?_, ?_⟩
      · rw [List.head?_map, hh]
        simp [nameOf_lookupId hsrc]
      · rw [List.getLast?_map, hl]
        simp [nameOf_lookupId hdst]
      · rw [List.chain'_map]
        refine chain'_imp_mem (fun a ha b hb hab => ?_) hc
        rw [lookupId_nameOf hwf.1 (hLb a ha), lookupId_nameOf hwf.1 (hLb b hb)]
        exact hab
  · intro hreach
    have hdnv : lookupId pkgs dst ∉
        (dfs (depsOf pkgs) (pkgs.length + 1) (lookupId pkgs src) St.zero).vis :=
      fun hc => hreach ((hvisiff _).mp hc)
    unfold tracePaths tracePathsF
    rw [if_pos hsany, if_pos hdany, if_neg hdnv]

/-- Witness for the amended C8 on the catalog a → b, b. -/
theorem claimC8_witness :
    (Reach (depsOf [⟨"a", "", 0, ["b"]⟩, ⟨"b", "", 0, []⟩])
        (lookupId [⟨"a", "", 0, ["b"]⟩, ⟨"b", "", 0, []⟩] "a")
        (lookupId [⟨"a", "", 0, ["b"]⟩, ⟨"b", "", 0, []⟩] "b") →
      ∃ pss, tracePaths [⟨"a", "", 0, ["b"]⟩, ⟨"b", "", 0, []⟩] "a" "b" = Except.ok pss ∧
        pss ≠ [] ∧
        ∀ q ∈ pss, q.head? = some "a" ∧ q.getLast? = some "b" ∧
          q.Chain' (fun a b => lookupId [⟨"a", "", 0, ["b"]⟩, ⟨"b", "", 0, []⟩] b ∈
            depsOf [⟨"a", "", 0, ["b"]⟩, ⟨"b", "", 0, []⟩]
              (lookupId [⟨"a", "", 0, ["b"]⟩, ⟨"b", "", 0, []⟩] a))) ∧
    (¬ Reach (depsOf [⟨"a", "", 0, ["b"]⟩, ⟨"b", "", 0, []⟩])
        (lookupId [⟨"a", "", 0, ["b"]⟩, ⟨"b", "", 0, []⟩] "a")
        (lookupId [⟨"a", "", 0, ["b"]⟩, ⟨"b", "", 0, []⟩] "b") →
      tracePaths [⟨"a", "", 0, ["b"]⟩, ⟨"b", "", 0, []⟩] "a" "b" =
        Except.error ("package " ++ "b" ++ " is not a dependency of " ++ "a")) :=
  @claimC8_amended [⟨"a", "", 0, ["b"]⟩, ⟨"b", "", 0, []⟩] (fun i => 2 - i)
    (by decide) (by decide) "a" "b" (by decide) (by decide)

/-- Cyclic example catalog: a → b, b → c, c → b. -/
def pkgsCyc : List Package :=
  [⟨"a", "", 0, ["b"]⟩, ⟨"b", "", 0, ["c"]⟩, ⟨"c", "", 0, ["b"]⟩]

/-- C8 counterexample: on a cyclic catalog, c is forward-reachable from a,
yet the trace never returns a path list: the backward search recurses
forever, so no fuel makes it produce one. -/
theorem claimC8_counterexample :
    Reach (depsOf pkgsCyc) (lookupId pkgsCyc "a") (lookupId pkgsCyc "c") ∧
    ¬ ∃ fuel pss, tracePathsF pkgsCyc fuel "a" "c" = Except.ok pss := by
  constructor
  · exact Relation.ReflTransGen.head
      (show Step (depsOf pkgsCyc) (lookupId pkgsCyc "a") 1 by decide)
      (Relation.ReflTransGen.single
        (show Step (depsOf pkgsCyc) 1 (lookupId pkgsCyc "c") by decide))
  · rintro ⟨fuel, pss, h⟩
    have h1 : tracePathsF pkgsCyc fuel "a" "c" =
        match findpathsF (rdepsOf pkgsCyc)
            (dfs (depsOf pkgsCyc) 4 0 St.zero).vis 0 fuel 2 [2] with
        | some pss2 => Except.ok (pss2.map (fun L => L.map (nameOf pkgsCyc)))
        | none => Except.error "trace does not terminate" := rfl
    rw [h1, (fp_cycle_none (by decide) (by decide) (by decide) (by decide) fuel).1 [2]] at h
    exact Except.noConfusion h

end Pkgtrim
